import Mathlib

/-!
# Verification of `plcrash::dwarf_cfa_stack` (Source/dwarf_cfa_stack.h)

Shallow embedding of the fixed-capacity, allocation-free register-rule map
used by PLCrashReporter's DWARF CFA unwinder.

Modelling choices:
* Pool entries (`dwarf_cfa_reg_entry_t`) live in a `List` of length `S`; the
  intrusive `next` pointers (`&_entries[j]` or `NULL`) become `Option Nat`
  indices into that list.  A dangling pointer is an index with no entry.
* The 6×15 bucket-head table `_table_stack` is a `List (List (Option Nat))`.
* `regnum` (`uint32_t`) is a `Nat`; the code performs no arithmetic on it
  other than `% 15`, so no wrap-around modelling is needed.  The register
  rule enum (`dwarf_cfa_reg_rule_t`, whose sole declared enumerator
  `DWARF_CFA_REG_RULE_OFFSET` is 0) is carried as a `Nat` and treated
  opaquely, exactly as the code treats it.
* The chain walks of `add_register` and `get_register_rule` are embedded
  with explicit fuel `S + 1`; a fuel-exhausted or dangling-pointer step is a
  `fault` outcome.  We prove that in every reachable state the chains are
  complete and shorter than the fuel, so the fault branches are dead.
* The constructor's out-of-bounds write for `S = 0`
  (`_entries[S-1].next = NULL`, where `S - 1` underflows as `size_t`) is
  recorded separately by `ctorWriteIndices`/`ctorWritesInBounds`; the state
  constructor `mkStack` models an out-of-bounds store as leaving the pool
  unchanged.
-/

namespace DwarfCfa

/-- One pool record, mirroring `dwarf_cfa_reg_entry_t`: the DWARF register
number, the register rule, the value, and the intrusive `next` link
(an index into the entry pool, or `none` for `NULL`). -/
structure Entry (T : Type) where
  regnum : Nat
  rule : Nat
  value : T
  next : Option Nat
  deriving Repr, DecidableEq

/-- The state of a `dwarf_cfa_stack<T, S>` object: the 6×15 bucket-head
table `_table_stack`, the active row `_table_pos`, the free-list head
`_free_list`, and the entry pool `_entries` (whose length is `S`). -/
structure CfaStack (T : Type) where
  table : List (List (Option Nat))
  tablePos : Nat
  freeList : Option Nat
  entries : List (Entry T)
  deriving Repr, DecidableEq

variable {T : Type}

/-- Read bucket head `_table_stack[row][b]`; out-of-range reads yield
`none` (never exercised from reachable states). -/
def tableGet (t : List (List (Option Nat))) (row b : Nat) : Option Nat :=
  ((t[row]?.getD [])[b]?).getD none

/-- Write bucket head `_table_stack[row][b] = v`. -/
def tableSet (t : List (List (Option Nat))) (row b : Nat) (v : Option Nat) :
    List (List (Option Nat)) :=
  t.set row ((t[row]?.getD []).set b v)

/-- Bucket head for bucket `b` of the currently active row. -/
def bucketHead (s : CfaStack T) (b : Nat) : Option Nat :=
  tableGet s.table s.tablePos b

/-- Outcome of the chain walk in `add_register` (lines 146–157): an existing
entry with the sought `regnum` was found (`found`, with the entry read there),
the walk stopped at the last element of a non-empty chain (`last`), the
bucket was empty (`empty`), or the walk ran off a dangling pointer /
exhausted its fuel (`fault`, impossible in reachable states). -/
inductive WalkRes (T : Type) where
  | found : Nat → Entry T → WalkRes T
  | last : Nat → WalkRes T
  | empty : WalkRes T
  | fault : WalkRes T
  deriving Repr, DecidableEq

/-- The `for (parent = head; parent != NULL; parent = parent->next)` loop of
`add_register`: return the matching entry if one exists, otherwise the last
chain element (the break at `parent->next == NULL`), or `empty` if the
bucket head was `NULL`. -/
def chainWalk (entries : List (Entry T)) (regnum : Nat) :
    Option Nat → Nat → WalkRes T
  | none, _ => .empty
  | some _, 0 => .fault
  | some i, fuel + 1 =>
    match entries[i]? with
    | none => .fault
    | some e =>
      if e.regnum = regnum then .found i e
      else
        match e.next with
        | none => .last i
        | some j => chainWalk entries regnum (some j) fuel

/-- The lookup loop of `get_register_rule` (lines 199–207): first entry in
the chain whose `regnum` matches, yielding its `(rule, value)`. -/
def getWalk (entries : List (Entry T)) (regnum : Nat) :
    Option Nat → Nat → Option (Nat × T)
  | none, _ => none
  | some _, 0 => none
  | some i, fuel + 1 =>
    match entries[i]? with
    | none => none
    | some e =>
      if e.regnum = regnum then some (e.rule, e.value)
      else getWalk entries regnum e.next fuel

/-- Materialize the index list of a `next`-linked chain, with fuel; `none`
when the chain is cyclic beyond the fuel or steps through a dangling
pointer. -/
def chainList (entries : List (Entry T)) : Option Nat → Nat → Option (List Nat)
  | none, _ => some []
  | some _, 0 => none
  | some i, fuel + 1 =>
    match entries[i]? with
    | none => none
    | some e => (chainList entries e.next fuel).map (i :: ·)

/-- `pow64 = 2^64`, the modulus of `size_t` arithmetic. -/
def pow64 : Nat := 2 ^ 64

/-- The index of the constructor's final store `_entries[S-1].next = NULL`,
with `size_t` wrap-around: for `S = 0` this is `2^64 - 1`. -/
def ctorFinalWriteIndex (S : Nat) : Nat := (S + pow64 - 1) % pow64

/-- The pool indices stored to by the constructor body (lines 124–127): the
loop writes `_entries[i].next` for `i < S`, then the final store writes
`_entries[S-1].next` with `size_t` subtraction. -/
def ctorWriteIndices (S : Nat) : List Nat :=
  List.range S ++ [ctorFinalWriteIndex S]

/-- Whether every store of the constructor stays inside the `S`-element
entry array. -/
def ctorWritesInBounds (S : Nat) : Bool :=
  (ctorWriteIndices S).all (· < S)

/-- Net contents of `_entries` after the constructor (for `S < 2^64`):
entry `i` links to `i + 1`, the last entry links to `NULL`; the other fields
are uninitialized and modelled by the arbitrary default `d`.  For `S = 0`
the final (out-of-bounds) store is modelled as leaving the empty pool
unchanged. -/
def mkEntries (d : T) (S : Nat) : List (Entry T) :=
  (List.range S).map fun i =>
    { regnum := 0, rule := 0, value := d,
      next := if i + 1 = S then none else some (i + 1) }

/-- The constructor `dwarf_cfa_stack()` (lines 122–133): thread the free
list, point `_free_list` at `&_entries[0]` (note: non-`NULL` even when
`S = 0`), zero the table, set `_table_pos = 0`. -/
def mkStack (d : T) (S : Nat) : CfaStack T :=
  { table := List.replicate 6 (List.replicate 15 none)
    tablePos := 0
    freeList := some 0
    entries := mkEntries d S }

/-- The tail of `add_register` after an unsuccessful search (lines 161–184):
pop the free list (failing if empty), populate the fresh entry, and link it
as the bucket head (`parent = none`) or behind the last chain element
(`parent = some p`). -/
def addFresh (s : CfaStack T) (regnum rule : Nat) (value : T)
    (parent : Option Nat) : Bool × CfaStack T :=
  match s.freeList with
  | none => (false, s)
  | some ei =>
    match s.entries[ei]? with
    | none => (false, s)
    | some e =>
      let entries₁ := s.entries.set ei ⟨regnum, rule, value, none⟩
      match parent with
      | none =>
        (true, { s with
                 entries := entries₁
                 freeList := e.next
                 table := tableSet s.table s.tablePos (regnum % 15) (some ei) })
      | some p =>
        match entries₁[p]? with
        | none => (false, { s with entries := entries₁, freeList := e.next })
        | some pe =>
          (true, { s with
                   entries := entries₁.set p { pe with next := some ei }
                   freeList := e.next })

/-- `add_register(regnum, rule, value)` (lines 142–185); the bucket is
`regnum % 15` (`sizeof(_table_stack[_table_pos]) / sizeof(..[0]) = 15`). -/
def add_register (s : CfaStack T) (regnum rule : Nat) (value : T) :
    Bool × CfaStack T :=
  match chainWalk s.entries regnum (bucketHead s (regnum % 15))
      (s.entries.length + 1) with
  | .found i e =>
    (true, { s with entries := s.entries.set i { e with rule := rule, value := value } })
  | .last p => addFresh s regnum rule value (some p)
  | .empty => addFresh s regnum rule value none
  | .fault => (false, s)

/-- `get_register_rule(regnum)` (lines 195–211); performing no store, it is
embedded as a pure function of the state, returning `some (rule, value)` for
success and `none` for the not-found outcome. -/
def get_register_rule (s : CfaStack T) (regnum : Nat) : Option (Nat × T) :=
  getWalk s.entries regnum (bucketHead s (regnum % 15)) (s.entries.length + 1)

/-- The fully materialized chain starting at `h`, with the standard fuel. -/
def theChain (s : CfaStack T) (h : Option Nat) : Option (List Nat) :=
  chainList s.entries h (s.entries.length + 1)

/-- Index list of the free list. -/
def freeL (s : CfaStack T) : List Nat := (theChain s s.freeList).getD []

/-- Index list of bucket `b`'s chain in the active row. -/
def bucketL (s : CfaStack T) (b : Nat) : List Nat :=
  (theChain s (bucketHead s b)).getD []

/-- All pool indices linked into the active row, bucket by bucket. -/
def rowIndexes (s : CfaStack T) : List Nat :=
  (List.range 15).flatMap (bucketL s)

/-- The `regnum` stored at index `i` of an entry pool (0 for an absent
index). -/
def entRegnum (entries : List (Entry T)) (i : Nat) : Nat :=
  (entries[i]?.map (·.regnum)).getD 0

/-- The data fields (`regnum`, `rule`, `value`) stored at index `i` of an
entry pool, ignoring the link. -/
def entView (entries : List (Entry T)) (i : Nat) : Option (Nat × Nat × T) :=
  entries[i]?.map fun e => (e.regnum, e.rule, e.value)

/-- The `regnum` stored at pool index `i` (0 for an absent index). -/
def regnumAt (s : CfaStack T) (i : Nat) : Nat :=
  entRegnum s.entries i

/-- Weak structural invariant, independent of the pool: row 0 is the active
row, the table is 6×15, and the bucket heads of rows 1–5 are all `NULL`
(as zero-filled at construction).  It holds in every reachable state, for
every capacity including `S = 0`. -/
def WInv (s : CfaStack T) : Prop :=
  s.tablePos = 0 ∧
  s.table.length = 6 ∧
  (∀ row ∈ s.table, row.length = 15) ∧
  (∀ r ∈ List.range 6, 1 ≤ r → ∀ b ∈ List.range 15, tableGet s.table r b = none)

instance (s : CfaStack T) : Decidable (WInv s) := by
  unfold WInv; infer_instance

/-- Structural invariant of reachable states: row 0 is active, the table is
6×15 with rows 1–5 empty, the free list and all bucket chains are complete
(acyclic, within fuel), together they hold each pool index exactly once,
every chained entry sits in the bucket its `regnum` hashes to, and no
`regnum` repeats inside a bucket chain. -/
def Inv (s : CfaStack T) : Prop :=
  WInv s ∧
  (theChain s s.freeList).isSome ∧
  (∀ b ∈ List.range 15, (theChain s (bucketHead s b)).isSome) ∧
  (freeL s ++ rowIndexes s).Perm (List.range s.entries.length) ∧
  (∀ b ∈ List.range 15, ∀ i ∈ bucketL s b, regnumAt s i % 15 = b) ∧
  (∀ b ∈ List.range 15, ((bucketL s b).map (regnumAt s)).Nodup)

instance (s : CfaStack T) : Decidable (Inv s) := by
  unfold Inv; infer_instance

/-- States reachable from construction by any sequence of `add_register`
calls (`get_register_rule` stores nothing, so it does not change state). -/
inductive Reachable (d : T) (S : Nat) : CfaStack T → Prop where
  | init : Reachable d S (mkStack d S)
  | add (s : CfaStack T) (r ru : Nat) (v : T) :
      Reachable d S s → Reachable d S (add_register s r ru v).2

/-- Run a list of `add_register` calls in order. -/
def runAdds (s : CfaStack T) : List (Nat × Nat × T) → CfaStack T
  | [] => s
  | (r, ru, v) :: rest => runAdds (add_register s r ru v).2 rest

/-- The success flags of a list of `add_register` calls, in order. -/
def runOks (s : CfaStack T) : List (Nat × Nat × T) → List Bool
  | [] => []
  | (r, ru, v) :: rest =>
    (add_register s r ru v).1 :: runOks (add_register s r ru v).2 rest

/-- The most recent `(rule, value)` written for `r` by the call list. -/
def lastWrite (ops : List (Nat × Nat × T)) (r : Nat) : Option (Nat × T) :=
  (ops.reverse.find? (fun o => o.1 == r)).map fun o => (o.2.1, o.2.2)

/-! ## Chains as index lists -/

/-- `IsChain entries h l`: starting from pointer `h` and following `next`
links, the visited pool indices are exactly `l`, ending at `NULL` without
ever stepping through a dangling pointer.  Cyclic or dangling chains satisfy
this for no `l`. -/
inductive IsChain (entries : List (Entry T)) : Option Nat → List Nat → Prop where
  | nil : IsChain entries none []
  | cons {i : Nat} {e : Entry T} {l : List Nat} :
      entries[i]? = some e → IsChain entries e.next l →
      IsChain entries (some i) (i :: l)

theorem chainList_eq_some {entries : List (Entry T)} {h₀ : Option Nat}
    {f : Nat} {l : List Nat} (h : chainList entries h₀ f = some l) :
    IsChain entries h₀ l ∧ l.length ≤ f := by
  induction f generalizing h₀ l with
  | zero =>
    cases h₀ with
    | none => simp [chainList] at h; subst h; exact ⟨.nil, by simp⟩
    | some i => simp [chainList] at h
  | succ f ih =>
    cases h₀ with
    | none => simp [chainList] at h; subst h; exact ⟨.nil, by simp⟩
    | some i =>
      cases he : entries[i]? with
      | none => simp [chainList, he] at h
      | some e =>
        simp only [chainList, he] at h
        cases hrec : chainList entries e.next f with
        | none => rw [hrec] at h; simp at h
        | some l' =>
          rw [hrec] at h
          simp at h
          subst h
          obtain ⟨hc, hlen⟩ := ih hrec
          exact ⟨.cons he hc, by simpa using Nat.succ_le_succ hlen⟩

theorem isChain_chainList {entries : List (Entry T)} {h₀ : Option Nat}
    {l : List Nat} (hc : IsChain entries h₀ l) :
    ∀ f, l.length ≤ f → chainList entries h₀ f = some l := by
  induction hc with
  | nil => intro f _; cases f <;> simp [chainList]
  | cons he _ ih =>
    intro f hf
    cases f with
    | zero => simp at hf
    | succ f =>
      rw [List.length_cons] at hf
      simp [chainList, he, ih f (Nat.le_of_succ_le_succ hf)]

theorem IsChain.determ {entries : List (Entry T)} {h₀ : Option Nat}
    {l₁ l₂ : List Nat} (hc₁ : IsChain entries h₀ l₁)
    (hc₂ : IsChain entries h₀ l₂) : l₁ = l₂ := by
  induction hc₁ generalizing l₂ with
  | nil => cases hc₂; rfl
  | cons he₁ _ ih =>
    cases hc₂ with
    | cons he₂ hc₂' =>
      rw [he₁] at he₂
      cases he₂
      rw [ih hc₂']

theorem IsChain.mem_isSome {entries : List (Entry T)} {h₀ : Option Nat}
    {l : List Nat} (hc : IsChain entries h₀ l) :
    ∀ i ∈ l, ∃ e, entries[i]? = some e := by
  induction hc with
  | nil => simp
  | cons he _ ih =>
    intro j hj
    rcases List.mem_cons.1 hj with rfl | hj
    · exact ⟨_, he⟩
    · exact ih j hj

/-- Updating an entry outside the chain leaves the chain intact. -/
theorem IsChain.set_not_mem {entries : List (Entry T)} {h₀ : Option Nat}
    {l : List Nat} (hc : IsChain entries h₀ l) {i : Nat} (hi : i ∉ l)
    (x : Entry T) : IsChain (entries.set i x) h₀ l := by
  induction hc with
  | nil => exact .nil
  | cons he hc' ih =>
    rename_i j e l'
    have hne : i ≠ j := fun h => hi (h ▸ List.mem_cons_self _ _)
    exact .cons (by rw [List.getElem?_set_ne hne]; exact he)
      (ih fun h => hi (List.mem_cons_of_mem _ h))

/-- Updating an entry without changing its link leaves every chain intact. -/
theorem IsChain.set_same_next {entries : List (Entry T)} {h₀ : Option Nat}
    {l : List Nat} (hc : IsChain entries h₀ l) {i : Nat} {e x : Entry T}
    (he : entries[i]? = some e) (hx : x.next = e.next) :
    IsChain (entries.set i x) h₀ l := by
  induction hc with
  | nil => exact .nil
  | cons hj hc' ih =>
    rename_i j ej l'
    by_cases hij : i = j
    · subst hij
      rw [he] at hj
      cases hj
      exact .cons (List.getElem?_set_eq_of_lt x (by
          have := List.getElem?_eq_some_iff.1 he
          exact this.1)) (hx ▸ ih)
    · exact .cons (by rw [List.getElem?_set_ne hij]; exact hj) ih

/-- An empty chain starts at `NULL`. -/
theorem IsChain.eq_nil {entries : List (Entry T)} {h₀ : Option Nat}
    (hc : IsChain entries h₀ []) : h₀ = none := by
  cases hc; rfl

/-- Inversion of a non-empty chain. -/
theorem IsChain.of_cons {entries : List (Entry T)} {h₀ : Option Nat}
    {j : Nat} {l : List Nat} (hc : IsChain entries h₀ (j :: l)) :
    h₀ = some j ∧ ∃ e, entries[j]? = some e ∧ IsChain entries e.next l := by
  cases hc with
  | cons he hc' => exact ⟨rfl, _, he, hc'⟩

/-- The last element of a non-empty chain holds a `NULL` link. -/
theorem IsChain.last_next_none {entries : List (Entry T)} {h₀ : Option Nat}
    {l : List Nat} (hc : IsChain entries h₀ l) {p : Nat}
    (hp : l.getLast? = some p) :
    ∃ pe, entries[p]? = some pe ∧ pe.next = none := by
  induction l generalizing h₀ with
  | nil => simp at hp
  | cons j l' ih =>
    obtain ⟨rfl, e, he, hc'⟩ := hc.of_cons
    cases l' with
    | nil =>
      simp only [List.getLast?_singleton, Option.some.injEq] at hp
      subst hp
      exact ⟨e, he, hc'.eq_nil⟩
    | cons k l'' =>
      rw [List.getLast?_cons_cons] at hp
      exact ih hc' hp

/-! ## Characterizing the two loops by the chain they walk -/

theorem entRegnum_eq {entries : List (Entry T)} {i : Nat} {e : Entry T}
    (he : entries[i]? = some e) : entRegnum entries i = e.regnum := by
  simp [entRegnum, he]

theorem find?_congr {α : Type} {l : List α} {p q : α → Bool}
    (h : ∀ a ∈ l, p a = q a) : l.find? p = l.find? q := by
  induction l with
  | nil => rfl
  | cons a l ih =>
    simp only [List.find?]
    rw [h a (List.mem_cons_self _ _)]
    cases q a with
    | true => rfl
    | false => exact ih fun b hb => h b (List.mem_cons_of_mem _ hb)

/-- The `add_register` search loop on a chain containing no match stops at
the last element (or reports an empty bucket). -/
theorem chainWalk_no_match {entries : List (Entry T)} {h₀ : Option Nat}
    {l : List Nat} {r : Nat} (hc : IsChain entries h₀ l)
    {f : Nat} (hf : l.length < f)
    (hno : ∀ i ∈ l, entRegnum entries i ≠ r) :
    chainWalk entries r h₀ f =
      (match l.getLast? with
       | none => WalkRes.empty
       | some p => WalkRes.last p) := by
  induction l generalizing h₀ f with
  | nil => rw [hc.eq_nil]; cases f <;> rfl
  | cons j l' ih =>
    obtain ⟨rfl, e, he, hc'⟩ := hc.of_cons
    cases f with
    | zero => simp at hf
    | succ f =>
      have hjr : e.regnum ≠ r := by
        have := hno j (List.mem_cons_self _ _)
        rwa [entRegnum_eq he] at this
      cases l' with
      | nil =>
        have hnext : e.next = none := hc'.eq_nil
        simp [chainWalk, he, hjr, hnext]
      | cons k l'' =>
        obtain ⟨hk, _, _, _⟩ := hc'.of_cons
        have step : chainWalk entries r (some j) (f + 1) =
            chainWalk entries r e.next f := by
          simp [chainWalk, he, hjr, hk]
        rw [step, List.getLast?_cons_cons,
          ih hc' (by simpa using Nat.lt_of_succ_lt_succ hf)
            fun i hi => hno i (List.mem_cons_of_mem _ hi)]

/-- The `add_register` search loop finds exactly the first chain element
whose `regnum` matches. -/
theorem chainWalk_found {entries : List (Entry T)} {h₀ : Option Nat}
    {l : List Nat} {r : Nat} (hc : IsChain entries h₀ l)
    {f : Nat} (hf : l.length < f) {i₀ : Nat}
    (hfind : l.find? (fun i => entRegnum entries i == r) = some i₀) :
    ∃ e₀, entries[i₀]? = some e₀ ∧ e₀.regnum = r ∧
      chainWalk entries r h₀ f = .found i₀ e₀ := by
  induction l generalizing h₀ f with
  | nil => simp at hfind
  | cons j l' ih =>
    obtain ⟨rfl, e, he, hc'⟩ := hc.of_cons
    cases f with
    | zero => simp at hf
    | succ f =>
      by_cases hjr : e.regnum = r
      · have hpred : (entRegnum entries j == r) = true := by
          simp [entRegnum_eq he, hjr]
        rw [@List.find?_cons_of_pos ℕ (fun i => entRegnum entries i == r)
          j l' hpred] at hfind
        cases hfind
        exact ⟨e, he, hjr, by simp [chainWalk, he, hjr]⟩
      · have hpred : ¬ ((fun i => entRegnum entries i == r) j = true) := by
          simp [entRegnum_eq he, hjr]
        rw [@List.find?_cons_of_neg ℕ (fun i => entRegnum entries i == r)
          j l' hpred] at hfind
        cases l' with
        | nil => simp at hfind
        | cons k l'' =>
          obtain ⟨hk, _, _, _⟩ := hc'.of_cons
          have step : chainWalk entries r (some j) (f + 1) =
              chainWalk entries r e.next f := by
            simp [chainWalk, he, hjr, hk]
          rw [step]
          exact ih hc' (by simpa using Nat.lt_of_succ_lt_succ hf) hfind

/-- The `get_register_rule` loop returns the data of the first chain element
whose `regnum` matches, and `none` when there is none. -/
theorem getWalk_eq_find {entries : List (Entry T)} {h₀ : Option Nat}
    {l : List Nat} {r : Nat} (hc : IsChain entries h₀ l)
    {f : Nat} (hf : l.length < f) :
    getWalk entries r h₀ f =
      (l.find? (fun i => entRegnum entries i == r)).bind
        (fun i => entries[i]?.map fun e => (e.rule, e.value)) := by
  induction l generalizing h₀ f with
  | nil => rw [hc.eq_nil]; cases f <;> rfl
  | cons j l' ih =>
    obtain ⟨rfl, e, he, hc'⟩ := hc.of_cons
    cases f with
    | zero => simp at hf
    | succ f =>
      by_cases hjr : e.regnum = r
      · have hpred : ((fun i => entRegnum entries i == r) j) = true := by
          simp [entRegnum_eq he, hjr]
        rw [@List.find?_cons_of_pos ℕ (fun i => entRegnum entries i == r)
          j l' hpred]
        simp [getWalk, he, hjr]
      · have hpred : ¬ ((fun i => entRegnum entries i == r) j = true) := by
          simp [entRegnum_eq he, hjr]
        rw [@List.find?_cons_of_neg ℕ (fun i => entRegnum entries i == r)
          j l' hpred]
        have step : getWalk entries r (some j) (f + 1) =
            getWalk entries r e.next f := by
          simp [getWalk, he, hjr]
        rw [step, ih hc' (by simpa using Nat.lt_of_succ_lt_succ hf)]

/-! ## Small list helpers -/

theorem sublist_flatMap {α β : Type} {f : α → List β} {L : List α} {a : α}
    (ha : a ∈ L) : (f a).Sublist (L.flatMap f) := by
  induction L with
  | nil => cases ha
  | cons b L' ih =>
    rcases List.mem_cons.1 ha with rfl | ha
    · rw [List.flatMap_cons]
      exact List.sublist_append_left _ _
    · refine (ih ha).trans ?_
      rw [List.flatMap_cons]
      exact List.sublist_append_right _ _

theorem flatMap_congr {α β : Type} {f g : α → List β} {L : List α}
    (h : ∀ a ∈ L, f a = g a) : L.flatMap f = L.flatMap g := by
  induction L with
  | nil => rfl
  | cons b L' ih =>
    rw [List.flatMap_cons, List.flatMap_cons, h b (List.mem_cons_self _ _),
      ih fun a ha => h a (List.mem_cons_of_mem _ ha)]

/-- Appending one element to a single slot of an indexed family of lists
permutes the flattened family by one extra element. -/
theorem flatMap_update_perm {f g : Nat → List Nat} {x : Nat} :
    ∀ {m b : Nat}, b < m → g b = f b ++ [x] →
    (∀ b' < m, b' ≠ b → g b' = f b') →
    ((List.range m).flatMap g).Perm (x :: (List.range m).flatMap f) := by
  intro m
  induction m with
  | zero => intro b hb; cases hb
  | succ k ih =>
    intro b hb hgb hother
    rw [List.range_succ, List.flatMap_append, List.flatMap_append,
      List.flatMap_singleton, List.flatMap_singleton]
    by_cases hbk : b = k
    · subst hbk
      have hcong : (List.range b).flatMap g = (List.range b).flatMap f :=
        flatMap_congr fun a ha =>
          hother a (Nat.lt_succ_of_lt (List.mem_range.1 ha))
            (Nat.ne_of_lt (List.mem_range.1 ha))
      rw [hcong, hgb, ← List.append_assoc]
      exact List.perm_append_singleton _ _
    · have hgk : g k = f k := hother k (Nat.lt_succ_self _) fun h => hbk h.symm
      have hperm := ih (Nat.lt_of_le_of_ne (Nat.le_of_lt_succ hb) hbk) hgb
        (fun b' hb' hne => hother b' (Nat.lt_succ_of_lt hb') hne)
      rw [hgk]
      exact (hperm.append_right (f k)).trans (by simp)

/-! ## Consequences of the invariant -/

theorem Inv.winv {s : CfaStack T} (h : Inv s) : WInv s := h.1

theorem inv_free_chain {s : CfaStack T} (h : Inv s) :
    IsChain s.entries s.freeList (freeL s) := by
  obtain ⟨l, hl⟩ := Option.isSome_iff_exists.1 h.2.1
  rw [freeL, hl, Option.getD_some]
  rw [theChain] at hl
  exact (chainList_eq_some hl).1

theorem inv_bucket_chain {s : CfaStack T} (h : Inv s) {b : Nat}
    (hb : b < 15) : IsChain s.entries (bucketHead s b) (bucketL s b) := by
  obtain ⟨l, hl⟩ := Option.isSome_iff_exists.1
    (h.2.2.1 b (List.mem_range.2 hb))
  rw [bucketL, hl, Option.getD_some]
  rw [theChain] at hl
  exact (chainList_eq_some hl).1

theorem inv_perm {s : CfaStack T} (h : Inv s) :
    (freeL s ++ rowIndexes s).Perm (List.range s.entries.length) :=
  h.2.2.2.1

theorem inv_placed {s : CfaStack T} (h : Inv s) :
    ∀ b ∈ List.range 15, ∀ i ∈ bucketL s b, regnumAt s i % 15 = b :=
  h.2.2.2.2.1

theorem inv_reg_nodup {s : CfaStack T} (h : Inv s) :
    ∀ b ∈ List.range 15, ((bucketL s b).map (regnumAt s)).Nodup :=
  h.2.2.2.2.2

theorem inv_indexes_nodup {s : CfaStack T} (h : Inv s) :
    (freeL s ++ rowIndexes s).Nodup :=
  ((inv_perm h).nodup_iff).2 (List.nodup_range _)

theorem inv_parts_length {s : CfaStack T} (h : Inv s) :
    (freeL s).length + (rowIndexes s).length = s.entries.length := by
  have hlen := (inv_perm h).length_eq
  simpa using hlen

theorem inv_free_length_le {s : CfaStack T} (h : Inv s) :
    (freeL s).length ≤ s.entries.length := by
  have := inv_parts_length h; omega

theorem inv_bucket_sublist {s : CfaStack T} {b : Nat} (hb : b < 15) :
    (bucketL s b).Sublist (rowIndexes s) :=
  sublist_flatMap (List.mem_range.2 hb)

theorem inv_bucket_length_le {s : CfaStack T} (h : Inv s) {b : Nat}
    (hb : b < 15) : (bucketL s b).length ≤ s.entries.length := by
  have h1 : (bucketL s b).length ≤ (rowIndexes s).length :=
    (inv_bucket_sublist hb).length_le
  have h2 := inv_parts_length h
  omega

theorem inv_mem_bucket_not_free {s : CfaStack T} (h : Inv s) {b i : Nat}
    (hb : b < 15) (hi : i ∈ bucketL s b) : i ∉ freeL s := by
  intro hif
  exact (List.disjoint_of_nodup_append (inv_indexes_nodup h)) hif
    ((inv_bucket_sublist hb).mem hi)

theorem inv_row_nodup {s : CfaStack T} (h : Inv s) : (rowIndexes s).Nodup :=
  (inv_indexes_nodup h).of_append_right

theorem inv_free_nodup {s : CfaStack T} (h : Inv s) : (freeL s).Nodup :=
  (inv_indexes_nodup h).of_append_left

theorem inv_bucket_nodup {s : CfaStack T} (h : Inv s) {b : Nat}
    (hb : b < 15) : (bucketL s b).Nodup :=
  (inv_row_nodup h).sublist (inv_bucket_sublist hb)

theorem inv_bucket_disjoint {s : CfaStack T} (h : Inv s) {b b' i : Nat}
    (hb : b < 15) (hb' : b' < 15) (hne : b ≠ b')
    (hi : i ∈ bucketL s b) : i ∉ bucketL s b' := by
  have hnd := inv_row_nodup h
  rw [rowIndexes, List.nodup_flatMap] at hnd
  exact hnd.2.forall (fun x y hd => List.Disjoint.symm hd)
    (List.mem_range.2 hb) (List.mem_range.2 hb') hne hi

theorem inv_mem_lt {s : CfaStack T} (h : Inv s) {i : Nat}
    (hi : i ∈ freeL s ++ rowIndexes s) : i < s.entries.length :=
  List.mem_range.1 ((inv_perm h).subset hi)

/-! ## The constructor establishes the invariant -/

theorem mkEntries_length (d : T) (S : Nat) : (mkEntries d S).length = S := by
  simp [mkEntries]

theorem mkEntries_getElem? (d : T) {S i : Nat} (hi : i < S) :
    (mkEntries d S)[i]? =
      some ⟨0, 0, d, if i + 1 = S then none else some (i + 1)⟩ := by
  simp [mkEntries, List.getElem?_map, List.getElem?_range, hi]

theorem isChain_mkEntries (d : T) (S : Nat) :
    ∀ k i, S - i = k → i < S →
      IsChain (mkEntries d S) (some i) (List.range' i k) := by
  intro k
  induction k with
  | zero => intro i hk hi; omega
  | succ k ih =>
    intro i hk hi
    have he := mkEntries_getElem? d hi
    rw [List.range'_succ]
    by_cases hiS : i + 1 = S
    · have hk0 : k = 0 := by omega
      subst hk0
      refine .cons he ?_
      simp only [hiS, if_pos rfl]
      exact .nil
    · refine .cons he ?_
      simp only [if_neg hiS]
      exact ih (i + 1) (by omega) (by omega)

theorem mkStack_winv (d : T) (S : Nat) : WInv (mkStack d S) := by
  refine ⟨rfl, by simp [mkStack], ?_, ?_⟩
  · intro row hrow
    rw [mkStack] at hrow
    simp only at hrow
    rw [List.eq_of_mem_replicate hrow]
    simp
  · intro r hr _ b hb
    show tableGet (List.replicate 6 (List.replicate 15 none)) r b = none
    have hr6 : r < 6 := List.mem_range.1 hr
    have hb15 : b < 15 := List.mem_range.1 hb
    rw [tableGet, List.getElem?_replicate, if_pos hr6, Option.getD_some,
      List.getElem?_replicate, if_pos hb15, Option.getD_some]

theorem bucketHead_mkStack (d : T) (S b : Nat) :
    bucketHead (mkStack d S) b = none := by
  show tableGet (List.replicate 6 (List.replicate 15 none)) 0 b = none
  rw [tableGet, List.getElem?_replicate, if_pos (by norm_num : (0:Nat) < 6),
    Option.getD_some]
  rcases Nat.lt_or_ge b 15 with hb | hb
  · rw [List.getElem?_replicate, if_pos hb, Option.getD_some]
  · rw [List.getElem?_eq_none (by simpa using hb)]
    rfl

theorem freeL_mkStack (d : T) {S : Nat} (hS : 1 ≤ S) :
    freeL (mkStack d S) = List.range S := by
  have hc : IsChain (mkEntries d S) (some 0) (List.range' 0 S) :=
    isChain_mkEntries d S S 0 (by omega) (by omega)
  have := isChain_chainList hc (S + 1) (by simp)
  have hlen : (mkStack d S).entries.length = S := mkEntries_length d S
  rw [freeL, theChain]
  show (chainList (mkEntries d S) (some 0) ((mkEntries d S).length + 1)).getD [] = _
  rw [mkEntries_length d S, this]
  simp [List.range_eq_range']

theorem bucketL_mkStack (d : T) (S b : Nat) :
    bucketL (mkStack d S) b = [] := by
  rw [bucketL, bucketHead_mkStack, theChain]
  rfl

theorem rowIndexes_mkStack (d : T) (S : Nat) :
    rowIndexes (mkStack d S) = [] := by
  rw [rowIndexes]
  rw [show (List.range 15).flatMap (bucketL (mkStack d S))
      = (List.range 15).flatMap (fun _ => ([] : List Nat)) from
    flatMap_congr fun b _ => bucketL_mkStack d S b]
  simp

theorem mkStack_inv (d : T) {S : Nat} (hS : 1 ≤ S) : Inv (mkStack d S) := by
  refine ⟨mkStack_winv d S, ?_, ?_, ?_, ?_, ?_⟩
  · have hc : IsChain (mkEntries d S) (some 0) (List.range' 0 S) :=
      isChain_mkEntries d S S 0 (by omega) (by omega)
    have := isChain_chainList hc (S + 1) (by simp)
    rw [theChain]
    show (chainList (mkEntries d S) (some 0) ((mkEntries d S).length + 1)).isSome
    rw [mkEntries_length d S, this]
    rfl
  · intro b _
    rw [theChain, bucketHead_mkStack]
    rfl
  · rw [freeL_mkStack d hS, rowIndexes_mkStack]
    rw [show (mkStack d S).entries.length = S from mkEntries_length d S]
    simp
  · intro b _ i hi
    rw [bucketL_mkStack] at hi
    cases hi
  · intro b _
    rw [bucketL_mkStack]
    simp

/-! ## Table updates and the weak invariant -/

theorem tableGet_tableSet_self {t : List (List (Option Nat))} {row b : Nat}
    (hrow : row < t.length) (hb : b < (t[row]?.getD []).length)
    (v : Option Nat) : tableGet (tableSet t row b v) row b = v := by
  rw [tableSet, tableGet, List.getElem?_set_eq_of_lt _ hrow, Option.getD_some,
    List.getElem?_set_eq_of_lt _ hb, Option.getD_some]

theorem tableGet_tableSet_ne {t : List (List (Option Nat))}
    {row b row' b' : Nat} (v : Option Nat) (hrow : row < t.length)
    (h : row ≠ row' ∨ b ≠ b') :
    tableGet (tableSet t row b v) row' b' = tableGet t row' b' := by
  rw [tableSet, tableGet, tableGet]
  by_cases hr : row = row'
  · subst hr
    have hb : b ≠ b' := h.resolve_left (by simp)
    rw [List.getElem?_set_eq_of_lt _ hrow, Option.getD_some,
      List.getElem?_set_ne hb]
  · rw [List.getElem?_set_ne hr]

theorem addFresh_tablePos (s : CfaStack T) (r ru : Nat) (v : T)
    (parent : Option Nat) :
    (addFresh s r ru v parent).2.tablePos = s.tablePos := by
  cases hf : s.freeList with
  | none => simp [addFresh, hf]
  | some ei =>
    cases he : s.entries[ei]? with
    | none => simp [addFresh, hf, he]
    | some e =>
      cases parent with
      | none => simp [addFresh, hf, he]
      | some p =>
        cases hp : (s.entries.set ei ⟨r, ru, v, none⟩)[p]? with
        | none => simp [addFresh, hf, he, hp]
        | some pe => simp [addFresh, hf, he, hp]

theorem addFresh_entries_length (s : CfaStack T) (r ru : Nat) (v : T)
    (parent : Option Nat) :
    (addFresh s r ru v parent).2.entries.length = s.entries.length := by
  cases hf : s.freeList with
  | none => simp [addFresh, hf]
  | some ei =>
    cases he : s.entries[ei]? with
    | none => simp [addFresh, hf, he]
    | some e =>
      cases parent with
      | none => simp [addFresh, hf, he]
      | some p =>
        cases hp : (s.entries.set ei ⟨r, ru, v, none⟩)[p]? with
        | none => simp [addFresh, hf, he, hp]
        | some pe => simp [addFresh, hf, he, hp]

theorem addFresh_table (s : CfaStack T) (r ru : Nat) (v : T)
    (parent : Option Nat) :
    (addFresh s r ru v parent).2.table = s.table ∨
    ∃ ei, (addFresh s r ru v parent).2.table =
      tableSet s.table s.tablePos (r % 15) (some ei) := by
  cases hf : s.freeList with
  | none => left; simp [addFresh, hf]
  | some ei =>
    cases he : s.entries[ei]? with
    | none => left; simp [addFresh, hf, he]
    | some e =>
      cases parent with
      | none => right; exact ⟨ei, by simp [addFresh, hf, he]⟩
      | some p =>
        cases hp : (s.entries.set ei ⟨r, ru, v, none⟩)[p]? with
        | none => left; simp [addFresh, hf, he, hp]
        | some pe => left; simp [addFresh, hf, he, hp]

theorem add_register_tablePos (s : CfaStack T) (r ru : Nat) (v : T) :
    (add_register s r ru v).2.tablePos = s.tablePos := by
  rw [add_register]
  cases chainWalk s.entries r (bucketHead s (r % 15)) (s.entries.length + 1) with
  | found i e => rfl
  | last p => exact addFresh_tablePos s r ru v (some p)
  | empty => exact addFresh_tablePos s r ru v none
  | fault => rfl

theorem add_register_entries_length (s : CfaStack T) (r ru : Nat) (v : T) :
    (add_register s r ru v).2.entries.length = s.entries.length := by
  rw [add_register]
  cases chainWalk s.entries r (bucketHead s (r % 15)) (s.entries.length + 1) with
  | found i e => simp
  | last p => exact addFresh_entries_length s r ru v (some p)
  | empty => exact addFresh_entries_length s r ru v none
  | fault => rfl

theorem add_register_table (s : CfaStack T) (r ru : Nat) (v : T) :
    (add_register s r ru v).2.table = s.table ∨
    ∃ ei, (add_register s r ru v).2.table =
      tableSet s.table s.tablePos (r % 15) (some ei) := by
  rw [add_register]
  cases chainWalk s.entries r (bucketHead s (r % 15)) (s.entries.length + 1) with
  | found i e => left; rfl
  | last p => exact addFresh_table s r ru v (some p)
  | empty => exact addFresh_table s r ru v none
  | fault => left; rfl

/-- `add_register` preserves the weak invariant for every capacity,
including `S = 0`: the active row stays 0 and rows 1–5 stay empty. -/
theorem add_register_winv {s : CfaStack T} (hw : WInv s) (r ru : Nat)
    (v : T) : WInv (add_register s r ru v).2 := by
  obtain ⟨hpos, hlen6, hrows, hupper⟩ := hw
  have hpos' := add_register_tablePos s r ru v
  obtain htab | ⟨ei, htab⟩ := add_register_table s r ru v
  · exact ⟨hpos' ▸ hpos, htab ▸ hlen6, htab ▸ hrows, htab ▸ hupper⟩
  · rw [hpos] at htab
    have h06 : 0 < s.table.length := by omega
    refine ⟨hpos' ▸ hpos, ?_, ?_, ?_⟩
    · rw [htab, tableSet, List.length_set]; exact hlen6
    · intro row hrow
      rw [htab, tableSet] at hrow
      rcases List.mem_or_eq_of_mem_set hrow with hmem | heq
      · exact hrows row hmem
      · subst heq
        rw [List.length_set]
        obtain ⟨row0, h0⟩ : ∃ row0, s.table[0]? = some row0 :=
          ⟨_, List.getElem?_eq_getElem h06⟩
        rw [h0, Option.getD_some]
        exact hrows row0 (List.getElem?_mem h0)
    · intro row hr hr1 b hb
      rw [htab, tableGet_tableSet_ne _ h06 (Or.inl (by omega))]
      exact hupper row hr hr1 b hb

/-! ## `get_register_rule` under the invariant -/

theorem get_eq_find {s : CfaStack T} (h : Inv s) (r : Nat) :
    get_register_rule s r =
      ((bucketL s (r % 15)).find? (fun i => entRegnum s.entries i == r)).bind
        (fun i => s.entries[i]?.map fun e => (e.rule, e.value)) := by
  have hb : r % 15 < 15 := Nat.mod_lt _ (by norm_num)
  exact getWalk_eq_find (inv_bucket_chain h hb)
    (Nat.lt_succ_of_le (inv_bucket_length_le h hb))

theorem get_find?_of_isSome {s : CfaStack T} (h : Inv s) {r : Nat}
    (hlive : (get_register_rule s r).isSome) :
    ∃ i₀ e₀, (bucketL s (r % 15)).find?
        (fun i => entRegnum s.entries i == r) = some i₀ ∧
      i₀ ∈ bucketL s (r % 15) ∧ s.entries[i₀]? = some e₀ ∧ e₀.regnum = r := by
  rw [get_eq_find h] at hlive
  cases hfind : (bucketL s (r % 15)).find?
      (fun i => entRegnum s.entries i == r) with
  | none => rw [hfind] at hlive; simp at hlive
  | some i₀ =>
    have hmem := List.mem_of_find?_eq_some hfind
    have hb : r % 15 < 15 := Nat.mod_lt _ (by norm_num)
    obtain ⟨e₀, he₀⟩ := (inv_bucket_chain h hb).mem_isSome _ hmem
    have hpred := List.find?_some hfind
    rw [entRegnum_eq he₀] at hpred
    exact ⟨i₀, e₀, rfl, hmem, he₀, by simpa using hpred⟩

theorem get_find?_eq_none {s : CfaStack T} (h : Inv s) {r : Nat}
    (hnot : get_register_rule s r = none) :
    (bucketL s (r % 15)).find? (fun i => entRegnum s.entries i == r)
      = none := by
  cases hfind : (bucketL s (r % 15)).find?
      (fun i => entRegnum s.entries i == r) with
  | none => rfl
  | some i₀ =>
    have hmem := List.mem_of_find?_eq_some hfind
    have hb : r % 15 < 15 := Nat.mod_lt _ (by norm_num)
    obtain ⟨e₀, he₀⟩ := (inv_bucket_chain h hb).mem_isSome _ hmem
    rw [get_eq_find h, hfind] at hnot
    simp [he₀] at hnot

theorem get_none_no_match {s : CfaStack T} (h : Inv s) {r : Nat}
    (hnot : get_register_rule s r = none) :
    ∀ i ∈ bucketL s (r % 15), entRegnum s.entries i ≠ r := by
  intro i hi
  have hfind := get_find?_eq_none h hnot
  have := List.find?_eq_none.1 hfind i hi
  simpa using this

/-! ## `add_register`: the three cases of the specification -/

/-- Helper: after a `set` that does not change the `next` link, every chain
rematerializes to the same index list with the standard fuel. -/
theorem chainList_set_same_next {entries : List (Entry T)} {i : Nat}
    {e x : Entry T} (he : entries[i]? = some e) (hx : x.next = e.next)
    {h₀ : Option Nat} {l : List Nat} (hc : IsChain entries h₀ l)
    {f : Nat} (hl : l.length ≤ f) :
    chainList (entries.set i x) h₀ f = some l :=
  isChain_chainList (hc.set_same_next he hx) f hl

theorem regnumAt_set_same {entries : List (Entry T)} {i : Nat}
    {e x : Entry T} (he : entries[i]? = some e) (hx : x.regnum = e.regnum) :
    ∀ j, entRegnum (entries.set i x) j = entRegnum entries j := by
  intro j
  by_cases hij : i = j
  · subst hij
    have hlt : i < entries.length := (List.getElem?_eq_some_iff.1 he).1
    rw [entRegnum, List.getElem?_set_eq_of_lt _ hlt, entRegnum, he]
    simp [hx]
  · rw [entRegnum, List.getElem?_set_ne hij, entRegnum]

/-- Case 1 — update in place (lines 146–152): when `regnum` is already
present in the active row, `add_register` succeeds, overwrites the entry's
`rule`/`value`, and leaves the table, the free list and every chain
untouched; afterwards `get_register_rule` returns the new pair for `regnum`
and is unchanged for every other register. -/
theorem add_update {s : CfaStack T} (h : Inv s) {r : Nat}
    (hlive : (get_register_rule s r).isSome) (ru : Nat) (v : T) :
    (add_register s r ru v).1 = true ∧
    Inv (add_register s r ru v).2 ∧
    (add_register s r ru v).2.table = s.table ∧
    (add_register s r ru v).2.tablePos = s.tablePos ∧
    (add_register s r ru v).2.freeList = s.freeList ∧
    (add_register s r ru v).2.entries.length = s.entries.length ∧
    freeL (add_register s r ru v).2 = freeL s ∧
    (∀ b, bucketL (add_register s r ru v).2 b = bucketL s b) ∧
    get_register_rule (add_register s r ru v).2 r = some (ru, v) ∧
    (∀ r', r' ≠ r →
      get_register_rule (add_register s r ru v).2 r'
        = get_register_rule s r') := by
  have hb : r % 15 < 15 := Nat.mod_lt _ (by norm_num)
  obtain ⟨i₀, e₀, hfind, hmem, he₀, hreg⟩ := get_find?_of_isSome h hlive
  have hc := inv_bucket_chain h hb
  have hlt : (bucketL s (r % 15)).length < s.entries.length + 1 :=
    Nat.lt_succ_of_le (inv_bucket_length_le h hb)
  obtain ⟨e₀', he₀', hreg', hwalk⟩ := chainWalk_found hc hlt hfind
  rw [he₀] at he₀'
  cases he₀'
  have hadd : add_register s r ru v =
      (true, { s with
               entries := s.entries.set i₀
                 { e₀ with rule := ru, value := v } }) := by
    unfold add_register
    rw [hwalk]
  set x : Entry T := { e₀ with rule := ru, value := v } with hxdef
  set s' : CfaStack T :=
    { s with entries := s.entries.set i₀ x } with hs2def
  have hxn : x.next = e₀.next := rfl
  have hxr : x.regnum = e₀.regnum := rfl
  have hlen' : s'.entries.length = s.entries.length := by
    simp [hs2def]
  have hfree' : chainList s'.entries s.freeList (s'.entries.length + 1)
      = some (freeL s) := by
    rw [hlen']
    exact chainList_set_same_next he₀ hxn (inv_free_chain h)
      (Nat.le_succ_of_le (inv_free_length_le h))
  have hbuckHead : ∀ b, bucketHead s' b = bucketHead s b := fun b => rfl
  have hbuck' : ∀ b, b < 15 →
      chainList s'.entries (bucketHead s b) (s'.entries.length + 1)
        = some (bucketL s b) := by
    intro b hb'
    rw [hlen']
    exact chainList_set_same_next he₀ hxn (inv_bucket_chain h hb')
      (Nat.le_succ_of_le (inv_bucket_length_le h hb'))
  have hfreeL' : freeL s' = freeL s := by
    rw [freeL, theChain]
    show (chainList s'.entries s.freeList (s'.entries.length + 1)).getD [] = _
    rw [hfree', Option.getD_some]
  have hbuckL' : ∀ b, bucketL s' b = bucketL s b := by
    intro b
    rcases Nat.lt_or_ge b 15 with hb' | hb'
    · rw [bucketL, theChain, hbuckHead, hbuck' b hb', Option.getD_some]
    · have hnone : bucketHead s b = none := by
        obtain ⟨hpos, hlen6, hrows, _⟩ := h.winv
        have h06 : 0 < s.table.length := by omega
        obtain ⟨row0, h0⟩ : ∃ row0, s.table[0]? = some row0 :=
          ⟨_, List.getElem?_eq_getElem h06⟩
        rw [bucketHead, hpos, tableGet, h0, Option.getD_some,
          List.getElem?_eq_none (by
            rw [hrows row0 (List.getElem?_mem h0)]; exact hb')]
        rfl
      rw [bucketL, theChain, hbuckHead, hnone, bucketL, theChain, hnone]
      simp [chainList]
  have hregAt : ∀ j, entRegnum s'.entries j = entRegnum s.entries j :=
    regnumAt_set_same he₀ hxr
  have hrowIdx : rowIndexes s' = rowIndexes s :=
    flatMap_congr fun b _ => hbuckL' b
  have hinv' : Inv s' := by
    refine ⟨⟨h.winv.1, h.winv.2.1, h.winv.2.2.1, h.winv.2.2.2⟩, ?_, ?_, ?_,
      ?_, ?_⟩
    · rw [theChain]
      show (chainList s'.entries s.freeList (s'.entries.length + 1)).isSome
      rw [hfree']
      rfl
    · intro b hb'
      rw [theChain, hbuckHead, hbuck' b (List.mem_range.1 hb')]
      rfl
    · rw [hfreeL', hrowIdx, hlen']
      exact inv_perm h
    · intro b hb' i hi
      rw [hbuckL'] at hi
      rw [regnumAt, hregAt]
      exact inv_placed h b hb' i hi
    · intro b hb'
      rw [hbuckL']
      have : (bucketL s b).map (regnumAt s') = (bucketL s b).map (regnumAt s) :=
        List.map_congr_left fun i _ => hregAt i
      rw [this]
      exact inv_reg_nodup h b hb'
  have hi₀lt : i₀ < s.entries.length :=
    inv_mem_lt h (List.mem_append_right _ ((inv_bucket_sublist hb).mem hmem))
  have hE'i₀ : s'.entries[i₀]? = some x := by
    show (s.entries.set i₀ x)[i₀]? = some x
    exact List.getElem?_set_eq_of_lt _ hi₀lt
  have hget' : get_register_rule s' r = some (ru, v) := by
    rw [get_eq_find hinv', hbuckL']
    rw [find?_congr fun i _ => by rw [hregAt i]]
    rw [hfind]
    simp [hE'i₀, hxdef]
  have hget'' : ∀ r', r' ≠ r →
      get_register_rule s' r' = get_register_rule s r' := by
    intro r' hne
    rw [get_eq_find hinv', get_eq_find h, hbuckL']
    rw [find?_congr fun i _ => by rw [hregAt i]]
    cases hfind' : (bucketL s (r' % 15)).find?
        (fun i => entRegnum s.entries i == r') with
    | none => rfl
    | some j =>
      have hmemj := List.mem_of_find?_eq_some hfind'
      have hbr' : r' % 15 < 15 := Nat.mod_lt _ (by norm_num)
      obtain ⟨ej, hej⟩ := (inv_bucket_chain h hbr').mem_isSome _ hmemj
      have hpredj := List.find?_some hfind'
      rw [entRegnum_eq hej] at hpredj
      have hjr : ej.regnum = r' := by simpa using hpredj
      have hji : j ≠ i₀ := by
        intro hcontra
        subst hcontra
        rw [hej] at he₀
        cases he₀
        exact hne (hjr ▸ hreg ▸ rfl)
      have hj' : s'.entries[j]? = s.entries[j]? := by
        show (s.entries.set i₀ x)[j]? = s.entries[j]?
        exact List.getElem?_set_ne fun hh => hji hh.symm
      show s'.entries[j]?.map (fun e => (e.rule, e.value))
          = s.entries[j]?.map (fun e => (e.rule, e.value))
      rw [hj']
  rw [hadd]
  exact ⟨rfl, hinv', rfl, rfl, rfl, hlen', hfreeL', hbuckL', hget', hget''⟩

/-- Case 3 — pool exhaustion (lines 161–168): when `regnum` is absent from
the active row and the free list is empty, `add_register` returns failure
and leaves the state bit-for-bit unchanged. -/
theorem add_exhaust {s : CfaStack T} (h : Inv s) {r : Nat}
    (hnot : get_register_rule s r = none) (ru : Nat) (v : T)
    (hfree : s.freeList = none) :
    add_register s r ru v = (false, s) := by
  have hb : r % 15 < 15 := Nat.mod_lt _ (by norm_num)
  have hc := inv_bucket_chain h hb
  have hlt : (bucketL s (r % 15)).length < s.entries.length + 1 :=
    Nat.lt_succ_of_le (inv_bucket_length_le h hb)
  have hno := get_none_no_match h hnot
  have hwalk := chainWalk_no_match hc hlt hno
  unfold add_register
  rw [hwalk]
  cases hg : (bucketL s (r % 15)).getLast? with
  | none => simp [addFresh, hfree]
  | some p => simp [addFresh, hfree]

/-- Linking a fresh `NULL`-terminated entry `ei` behind the last element `p`
of a chain extends the chain by exactly `[ei]` at its end. -/
theorem isChain_append_last {entries E' : List (Entry T)} {h₀ : Option Nat}
    {l : List Nat} {p ei : Nat} {pe newE : Entry T}
    (hc : IsChain entries h₀ l) (hnd : l.Nodup) (hlast : l.getLast? = some p)
    (hei : ei ∉ l) (hpe : entries[p]? = some pe)
    (hE'p : E'[p]? = some { pe with next := some ei })
    (hE'j : ∀ j ∈ l, j ≠ p → E'[j]? = entries[j]?)
    (hE'ei : E'[ei]? = some newE) (hnE : newE.next = none) :
    IsChain E' h₀ (l ++ [ei]) := by
  induction l generalizing h₀ with
  | nil => simp at hlast
  | cons j l' ih =>
    obtain ⟨rfl, e, he, hc'⟩ := hc.of_cons
    cases l' with
    | nil =>
      simp only [List.getLast?_singleton, Option.some.injEq] at hlast
      subst hlast
      rw [he] at hpe
      cases hpe
      exact .cons hE'p (.cons hE'ei (by rw [hnE]; exact .nil))
    | cons k l'' =>
      have hjp : j ≠ p := by
        have hpmem : p ∈ k :: l'' := List.mem_of_mem_getLast?
          (by rwa [List.getLast?_cons_cons] at hlast)
        intro hcontra
        subst hcontra
        exact (List.nodup_cons.1 hnd).1 hpmem
      have hE'full : E'[j]? = some e := by
        rw [hE'j j (List.mem_cons_self _ _) hjp, he]
      refine .cons hE'full ?_
      exact ih hc' (List.nodup_cons.1 hnd).2
        (by rwa [List.getLast?_cons_cons] at hlast)
        (fun hm => hei (List.mem_cons_of_mem _ hm))
        (fun j' hj' hj'p => hE'j j' (List.mem_cons_of_mem _ hj') hj'p)


theorem entRegnum_of_entView {E E' : List (Entry T)} {j : Nat}
    (h : entView E' j = entView E j) : entRegnum E' j = entRegnum E j := by
  rw [entRegnum, entRegnum]
  cases hE : E[j]? <;> cases hE' : E'[j]? <;>
    rw [entView, entView, hE, hE'] at h <;> simp_all

theorem map_ruleValue_of_entView {E E' : List (Entry T)} {j : Nat}
    (h : entView E' j = entView E j) :
    E'[j]?.map (fun e => (e.rule, e.value))
      = E[j]?.map (fun e => (e.rule, e.value)) := by
  cases hE : E[j]? <;> cases hE' : E'[j]? <;>
    rw [entView, entView, hE, hE'] at h <;> simp_all

/-- Shared consequences of a fresh insertion, abstracted over which of the
two linking branches (`bucket head` / `append behind last`) produced the
successor state `s'`. -/
theorem insert_common {s s' : CfaStack T} (h : Inv s) {r ru : Nat} {v : T}
    {ei : Nat} {fl' : List Nat}
    (hw' : WInv s')
    (hlen : s'.entries.length = s.entries.length)
    (hfldecomp : freeL s = ei :: fl')
    (hno : ∀ i ∈ bucketL s (r % 15), entRegnum s.entries i ≠ r)
    (hchainfree : chainList s'.entries s'.freeList (s'.entries.length + 1)
      = some fl')
    (hchainb : chainList s'.entries (bucketHead s' (r % 15))
      (s'.entries.length + 1) = some (bucketL s (r % 15) ++ [ei]))
    (hchainne : ∀ b, b < 15 → b ≠ r % 15 →
      chainList s'.entries (bucketHead s' b) (s'.entries.length + 1)
        = some (bucketL s b))
    (hview : ∀ j, j ≠ ei → entView s'.entries j = entView s.entries j)
    (hE'ei : s'.entries[ei]? = some ⟨r, ru, v, none⟩) :
    Inv s' ∧ freeL s' = fl' ∧
    bucketL s' (r % 15) = bucketL s (r % 15) ++ [ei] ∧
    (∀ b, b < 15 → b ≠ r % 15 → bucketL s' b = bucketL s b) ∧
    get_register_rule s' r = some (ru, v) ∧
    (∀ r', r' ≠ r → get_register_rule s' r' = get_register_rule s r') := by
  have hb : r % 15 < 15 := Nat.mod_lt _ (by norm_num)
  have heimem : ei ∈ freeL s := by
    rw [hfldecomp]; exact List.mem_cons_self _ _
  have hdisj : (freeL s).Disjoint (rowIndexes s) :=
    List.disjoint_of_nodup_append (inv_indexes_nodup h)
  have heirow : ei ∉ rowIndexes s := hdisj heimem
  have heib : ∀ b, b < 15 → ei ∉ bucketL s b := fun b hb' hmem =>
    heirow ((inv_bucket_sublist hb').mem hmem)
  have hfreelen := inv_parts_length h
  have hblen : (bucketL s (r % 15)).length + 1 ≤ s.entries.length := by
    have h1 : (bucketL s (r % 15)).length ≤ (rowIndexes s).length :=
      (inv_bucket_sublist hb).length_le
    have h2 : 1 ≤ (freeL s).length := by rw [hfldecomp]; simp
    omega
  have hregne : ∀ j, j ≠ ei →
      entRegnum s'.entries j = entRegnum s.entries j := fun j hj =>
    entRegnum_of_entView (hview j hj)
  have hregei : entRegnum s'.entries ei = r := by
    rw [entRegnum, hE'ei]; rfl
  have hfreeL' : freeL s' = fl' := by
    rw [freeL, theChain, hchainfree, Option.getD_some]
  have hbuckb : bucketL s' (r % 15) = bucketL s (r % 15) ++ [ei] := by
    rw [bucketL, theChain, hchainb, Option.getD_some]
  have hbuckne : ∀ b, b < 15 → b ≠ r % 15 → bucketL s' b = bucketL s b := by
    intro b hb' hbne
    rw [bucketL, theChain, hchainne b hb' hbne, Option.getD_some]
  have hrowperm : (rowIndexes s').Perm (ei :: rowIndexes s) :=
    flatMap_update_perm hb hbuckb hbuckne
  have hperm' : (freeL s' ++ rowIndexes s').Perm
      (List.range s'.entries.length) := by
    rw [hfreeL', hlen]
    have h1 : (fl' ++ rowIndexes s').Perm (fl' ++ (ei :: rowIndexes s)) :=
      hrowperm.append_left fl'
    have h2 : (fl' ++ (ei :: rowIndexes s)).Perm
        (ei :: (fl' ++ rowIndexes s)) := List.perm_middle
    have h4 := inv_perm h
    rw [hfldecomp] at h4
    exact (h1.trans h2).trans h4
  have hplaced' : ∀ b ∈ List.range 15, ∀ i ∈ bucketL s' b,
      regnumAt s' i % 15 = b := by
    intro b hbmem i hi
    have hb15 := List.mem_range.1 hbmem
    by_cases hbeq : b = r % 15
    · subst hbeq
      rw [hbuckb] at hi
      rcases List.mem_append.1 hi with hi | hi
      · have hine : i ≠ ei := fun hh => heib _ hb (hh ▸ hi)
        rw [regnumAt, hregne i hine]
        exact inv_placed h _ hbmem i hi
      · have : i = ei := by simpa using hi
        subst this
        rw [regnumAt, hregei]
    · rw [hbuckne b hb15 hbeq] at hi
      have hine : i ≠ ei := fun hh => heib _ hb15 (hh ▸ hi)
      rw [regnumAt, hregne i hine]
      exact inv_placed h _ hbmem i hi
  have hnodup' : ∀ b ∈ List.range 15,
      ((bucketL s' b).map (regnumAt s')).Nodup := by
    intro b hbmem
    have hb15 := List.mem_range.1 hbmem
    by_cases hbeq : b = r % 15
    · subst hbeq
      rw [hbuckb, List.map_append]
      have hmapold : (bucketL s (r % 15)).map (regnumAt s')
          = (bucketL s (r % 15)).map (regnumAt s) :=
        List.map_congr_left fun i hi => by
          have hine : i ≠ ei := fun hh => heib _ hb (hh ▸ hi)
          rw [regnumAt, hregne i hine, regnumAt]
      rw [hmapold]
      refine List.nodup_append.2 ⟨inv_reg_nodup h _ hbmem, by simp, ?_⟩
      intro a ha hamem
      have : a = regnumAt s' ei := by simpa using hamem
      rw [this, regnumAt, hregei] at ha
      obtain ⟨i, hi, hri⟩ := List.mem_map.1 ha
      exact hno i hi hri
    · rw [hbuckne b hb15 hbeq]
      have : (bucketL s b).map (regnumAt s')
          = (bucketL s b).map (regnumAt s) :=
        List.map_congr_left fun i hi => by
          have hine : i ≠ ei := fun hh => heib _ hb15 (hh ▸ hi)
          rw [regnumAt, hregne i hine, regnumAt]
      rw [this]
      exact inv_reg_nodup h _ hbmem
  have hinv' : Inv s' := by
    refine ⟨hw', ?_, ?_, hperm', hplaced', hnodup'⟩
    · rw [theChain]
      show (chainList s'.entries s'.freeList (s'.entries.length + 1)).isSome
      rw [hchainfree]; rfl
    · intro b hbmem
      have hb15 := List.mem_range.1 hbmem
      rw [theChain]
      by_cases hbeq : b = r % 15
      · subst hbeq
        show (chainList s'.entries (bucketHead s' (r % 15))
          (s'.entries.length + 1)).isSome
        rw [hchainb]; rfl
      · show (chainList s'.entries (bucketHead s' b)
          (s'.entries.length + 1)).isSome
        rw [hchainne b hb15 hbeq]; rfl
  have hget' : get_register_rule s' r = some (ru, v) := by
    rw [get_eq_find hinv', hbuckb, List.find?_append]
    have hfindold : (bucketL s (r % 15)).find?
        (fun i => entRegnum s'.entries i == r) = none := by
      refine List.find?_eq_none.2 fun i hi => ?_
      have hine : i ≠ ei := fun hh => heib _ hb (hh ▸ hi)
      rw [hregne i hine]
      simpa using hno i hi
    rw [hfindold, Option.none_or]
    have hfindei : [ei].find? (fun i => entRegnum s'.entries i == r)
        = some ei := by
      simp [List.find?, hregei]
    rw [hfindei]
    show s'.entries[ei]?.map (fun e => (e.rule, e.value)) = some (ru, v)
    rw [hE'ei]
    rfl
  have hget'' : ∀ r', r' ≠ r →
      get_register_rule s' r' = get_register_rule s r' := by
    intro r' hne
    have hbr' : r' % 15 < 15 := Nat.mod_lt _ (by norm_num)
    rw [get_eq_find hinv', get_eq_find h]
    by_cases hbeq : r' % 15 = r % 15
    · rw [hbeq, hbuckb, List.find?_append]
      have hfindei : [ei].find? (fun i => entRegnum s'.entries i == r')
          = none := by
        have hrr : (entRegnum s'.entries ei == r') = false := by
          rw [hregei]
          simp only [beq_eq_false_iff_ne, ne_eq]
          exact fun hh => hne hh.symm
        simp [List.find?, hrr]
      rw [hfindei, Option.or_none]
      rw [find?_congr fun i hi => by
        have hine : i ≠ ei := fun hh => heib _ hb (hh ▸ hi)
        rw [hregne i hine]]
      cases hf : (bucketL s (r % 15)).find?
          (fun i => entRegnum s.entries i == r') with
      | none => rfl
      | some j =>
        have hj := List.mem_of_find?_eq_some hf
        have hjne : j ≠ ei := fun hh => heib _ hb (hh ▸ hj)
        show s'.entries[j]?.map (fun e => (e.rule, e.value))
            = s.entries[j]?.map (fun e => (e.rule, e.value))
        exact map_ruleValue_of_entView (hview j hjne)
    · rw [hbuckne _ hbr' hbeq]
      rw [find?_congr fun i hi => by
        have hine : i ≠ ei := fun hh => heib _ hbr' (hh ▸ hi)
        rw [hregne i hine]]
      cases hf : (bucketL s (r' % 15)).find?
          (fun i => entRegnum s.entries i == r') with
      | none => rfl
      | some j =>
        have hj := List.mem_of_find?_eq_some hf
        have hjne : j ≠ ei := fun hh => heib _ hbr' (hh ▸ hj)
        show s'.entries[j]?.map (fun e => (e.rule, e.value))
            = s.entries[j]?.map (fun e => (e.rule, e.value))
        exact map_ruleValue_of_entView (hview j hjne)
  exact ⟨hinv', hfreeL', hbuckb, hbuckne, hget', hget''⟩

/-- Case 2 — fresh insertion (lines 161–184): when `regnum` is absent from
the active row and the free list is non-empty (head entry `ei`),
`add_register` succeeds, pops `ei` off the free list, populates it, and
appends it at the end of bucket `regnum % 15`'s chain (installing it as the
bucket head when the bucket was empty); every other chain is untouched, and
afterwards `get_register_rule` returns the new pair for `regnum` and is
unchanged for every other register. -/
theorem add_insert {s : CfaStack T} (h : Inv s) {r : Nat}
    (hnot : get_register_rule s r = none) (ru : Nat) (v : T)
    {ei : Nat} (hfree : s.freeList = some ei) :
    (add_register s r ru v).1 = true ∧
    Inv (add_register s r ru v).2 ∧
    (add_register s r ru v).2.tablePos = s.tablePos ∧
    (add_register s r ru v).2.entries.length = s.entries.length ∧
    freeL s = ei :: freeL (add_register s r ru v).2 ∧
    bucketL (add_register s r ru v).2 (r % 15) = bucketL s (r % 15) ++ [ei] ∧
    (∀ b, b < 15 → b ≠ r % 15 →
      bucketL (add_register s r ru v).2 b = bucketL s b) ∧
    get_register_rule (add_register s r ru v).2 r = some (ru, v) ∧
    (∀ r', r' ≠ r →
      get_register_rule (add_register s r ru v).2 r'
        = get_register_rule s r') := by
  have hb : r % 15 < 15 := Nat.mod_lt _ (by norm_num)
  have hcb := inv_bucket_chain h hb
  have hlt : (bucketL s (r % 15)).length < s.entries.length + 1 :=
    Nat.lt_succ_of_le (inv_bucket_length_le h hb)
  have hno := get_none_no_match h hnot
  have hwalk := chainWalk_no_match hcb hlt hno
  have hcfree := inv_free_chain h
  rw [hfree] at hcfree
  obtain ⟨fl', hfldecomp, e, he, hcfl'⟩ : ∃ fl', freeL s = ei :: fl' ∧
      ∃ e, s.entries[ei]? = some e ∧ IsChain s.entries e.next fl' := by
    cases hfl : freeL s with
    | nil => rw [hfl] at hcfree; cases hcfree.eq_nil
    | cons j fl' =>
      rw [hfl] at hcfree
      obtain ⟨hj, e, he, hc'⟩ := hcfree.of_cons
      cases hj
      exact ⟨fl', rfl, e, he, hc'⟩
  have heimem : ei ∈ freeL s := by
    rw [hfldecomp]; exact List.mem_cons_self _ _
  have heilt : ei < s.entries.length :=
    inv_mem_lt h (List.mem_append_left _ heimem)
  have hdisj := List.disjoint_of_nodup_append (inv_indexes_nodup h)
  have heirow : ei ∉ rowIndexes s := hdisj heimem
  have heib : ∀ b, b < 15 → ei ∉ bucketL s b := fun b hb' hmem =>
    heirow ((inv_bucket_sublist hb').mem hmem)
  have heifl' : ei ∉ fl' := by
    have hnd := inv_free_nodup h
    rw [hfldecomp] at hnd
    exact (List.nodup_cons.1 hnd).1
  obtain ⟨hpos, hlen6, hrows, hupper⟩ := h.winv
  have h06 : 0 < s.table.length := by omega
  obtain ⟨row0, hrow0⟩ : ∃ row0, s.table[0]? = some row0 :=
    ⟨_, List.getElem?_eq_getElem h06⟩
  have hrow0len : (s.table[s.tablePos]?.getD []).length = 15 := by
    rw [hpos, hrow0, Option.getD_some]
    exact hrows row0 (List.getElem?_mem hrow0)
  have hfl'len : fl'.length + 1 = (freeL s).length := by
    rw [hfldecomp]; rfl
  have hfreele := inv_free_length_le h
  have hblen : (bucketL s (r % 15)).length + 1 ≤ s.entries.length := by
    have h1 : (bucketL s (r % 15)).length ≤ (rowIndexes s).length :=
      (inv_bucket_sublist hb).length_le
    have h2 := inv_parts_length h
    omega
  have hE₁len : (s.entries.set ei (⟨r, ru, v, none⟩ : Entry T)).length
      = s.entries.length := List.length_set ..
  have hE₁ei : (s.entries.set ei (⟨r, ru, v, none⟩ : Entry T))[ei]?
      = some ⟨r, ru, v, none⟩ := List.getElem?_set_eq_of_lt _ heilt
  have hE₁ne : ∀ j, j ≠ ei →
      (s.entries.set ei (⟨r, ru, v, none⟩ : Entry T))[j]?
        = s.entries[j]? := fun j hj =>
    List.getElem?_set_ne fun hh => hj hh.symm
  cases hg : (bucketL s (r % 15)).getLast? with
  | none =>
    have hlbnil : bucketL s (r % 15) = [] := List.getLast?_eq_none_iff.mp hg
    rw [hg] at hwalk
    have hadd : add_register s r ru v =
        (true, { s with
                 entries := s.entries.set ei ⟨r, ru, v, none⟩
                 freeList := e.next
                 table := tableSet s.table s.tablePos (r % 15)
                   (some ei) }) := by
      unfold add_register
      rw [hwalk]
      simp [addFresh, hfree, he]
    have hw' : WInv (add_register s r ru v).2 :=
      add_register_winv ⟨hpos, hlen6, hrows, hupper⟩ r ru v
    rw [hadd] at hw'
    set sA : CfaStack T :=
      { s with
        entries := s.entries.set ei ⟨r, ru, v, none⟩
        freeList := e.next
        table := tableSet s.table s.tablePos (r % 15) (some ei) } with hsA
    have hlenA : sA.entries.length = s.entries.length := hE₁len
    have hheadb : bucketHead sA (r % 15) = some ei := by
      show tableGet (tableSet s.table s.tablePos (r % 15) (some ei))
        s.tablePos (r % 15) = some ei
      exact tableGet_tableSet_self (by omega)
        (by rw [hrow0len]; exact hb) _
    have hheadne : ∀ b, b ≠ r % 15 → bucketHead sA b = bucketHead s b := by
      intro b hbne
      show tableGet (tableSet s.table s.tablePos (r % 15) (some ei))
        s.tablePos b = tableGet s.table s.tablePos b
      exact tableGet_tableSet_ne _ (by omega)
        (Or.inr fun hh => hbne hh.symm)
    have hcommon := insert_common h hw' hlenA hfldecomp hno
      (by
        show chainList sA.entries e.next (sA.entries.length + 1) = some fl'
        rw [hlenA]
        exact isChain_chainList (hcfl'.set_not_mem heifl' _) _ (by omega))
      (by
        rw [hheadb, hlenA, hlbnil]
        exact isChain_chainList
          (.cons hE₁ei (by exact .nil)) _ (by simp))
      (by
        intro b hb' hbne
        rw [hheadne b hbne, hlenA]
        exact isChain_chainList
          ((inv_bucket_chain h hb').set_not_mem (heib b hb') _)
          _ (Nat.le_succ_of_le (inv_bucket_length_le h hb')))
      (by
        intro j hj
        show (s.entries.set ei ⟨r, ru, v, none⟩)[j]?.map _
          = s.entries[j]?.map _
        rw [hE₁ne j hj])
      hE₁ei
    rw [hadd]
    exact ⟨rfl, hcommon.1, rfl, hlenA, by rw [hcommon.2.1, hfldecomp],
      hcommon.2.2.1, hcommon.2.2.2.1, hcommon.2.2.2.2.1,
      hcommon.2.2.2.2.2⟩
  | some p =>
    rw [hg] at hwalk
    have hpmem : p ∈ bucketL s (r % 15) := List.mem_of_mem_getLast? hg
    have hpei : p ≠ ei := fun hh => heib _ hb (hh ▸ hpmem)
    have hplt : p < s.entries.length :=
      inv_mem_lt h (List.mem_append_right _ ((inv_bucket_sublist hb).mem hpmem))
    obtain ⟨pe, hpe⟩ := hcb.mem_isSome p hpmem
    have hE₁p : (s.entries.set ei (⟨r, ru, v, none⟩ : Entry T))[p]?
        = some pe := by rw [hE₁ne p hpei]; exact hpe
    have hadd : add_register s r ru v =
        (true, { s with
                 entries := (s.entries.set ei ⟨r, ru, v, none⟩).set p
                   { pe with next := some ei }
                 freeList := e.next }) := by
      unfold add_register
      rw [hwalk]
      simp [addFresh, hfree, he, hE₁p]
    have hw' : WInv (add_register s r ru v).2 :=
      add_register_winv ⟨hpos, hlen6, hrows, hupper⟩ r ru v
    rw [hadd] at hw'
    set sB : CfaStack T :=
      { s with
        entries := (s.entries.set ei ⟨r, ru, v, none⟩).set p
          { pe with next := some ei }
        freeList := e.next } with hsB
    have hlenB : sB.entries.length = s.entries.length := by
      show ((s.entries.set ei _).set p _).length = s.entries.length
      rw [List.length_set, List.length_set]
    have hE₂ei : sB.entries[ei]? = some ⟨r, ru, v, none⟩ := by
      show ((s.entries.set ei _).set p _)[ei]? = _
      rw [List.getElem?_set_ne hpei]
      exact hE₁ei
    have hE₂p : sB.entries[p]? = some { pe with next := some ei } := by
      show ((s.entries.set ei _).set p _)[p]? = _
      exact List.getElem?_set_eq_of_lt _ (by rw [hE₁len]; exact hplt)
    have hE₂j : ∀ j, j ≠ ei → j ≠ p → sB.entries[j]? = s.entries[j]? := by
      intro j hjei hjp
      show ((s.entries.set ei _).set p _)[j]? = _
      rw [List.getElem?_set_ne fun hh => hjp hh.symm, hE₁ne j hjei]
    have hpfl' : p ∉ fl' := by
      intro hmem
      have hpfree : p ∈ freeL s := by
        rw [hfldecomp]; exact List.mem_cons_of_mem _ hmem
      exact hdisj hpfree ((inv_bucket_sublist hb).mem hpmem)
    have hpbne : ∀ b, b < 15 → b ≠ r % 15 → p ∉ bucketL s b := by
      intro b hb' hbne hmem
      exact inv_bucket_disjoint h hb hb' (fun hh => hbne hh.symm) hpmem hmem
    have hheads : ∀ b, bucketHead sB b = bucketHead s b := fun b => rfl
    have hcommon := insert_common h hw' hlenB hfldecomp hno
      (by
        show chainList sB.entries e.next (sB.entries.length + 1) = some fl'
        rw [hlenB]
        refine isChain_chainList
          (((hcfl'.set_not_mem heifl' _).set_not_mem hpfl' _)) _ (by omega))
      (by
        rw [hheads, hlenB]
        refine isChain_chainList ?_ _ (by
          rw [List.length_append]
          simp only [List.length_singleton]
          omega)
        exact isChain_append_last hcb (inv_bucket_nodup h hb) hg
          (heib _ hb) hpe hE₂p
          (fun j hj hjp => hE₂j j (fun hh => heib _ hb (hh ▸ hj)) hjp)
          hE₂ei rfl)
      (by
        intro b hb' hbne
        rw [hheads, hlenB]
        exact isChain_chainList
          (((inv_bucket_chain h hb').set_not_mem (heib b hb') _).set_not_mem
            (hpbne b hb' hbne) _)
          _ (Nat.le_succ_of_le (inv_bucket_length_le h hb')))
      (by
        intro j hj
        by_cases hjp : j = p
        · subst hjp
          rw [entView, entView, hE₂p, hpe]
          rfl
        · rw [entView, entView, hE₂j j hj hjp])
      hE₂ei
    rw [hadd]
    exact ⟨rfl, hcommon.1, rfl, hlenB, by rw [hcommon.2.1, hfldecomp],
      hcommon.2.2.1, hcommon.2.2.2.1, hcommon.2.2.2.2.1,
      hcommon.2.2.2.2.2⟩

/-! ## Reachable states -/

theorem reachable_length {d : T} {S : Nat} {s : CfaStack T}
    (hr : Reachable d S s) : s.entries.length = S := by
  induction hr with
  | init => exact mkEntries_length d S
  | add s r ru v _ ih => rw [add_register_entries_length]; exact ih

theorem reachable_winv {d : T} {S : Nat} {s : CfaStack T}
    (hr : Reachable d S s) : WInv s := by
  induction hr with
  | init => exact mkStack_winv d S
  | add s r ru v _ ih => exact add_register_winv ih r ru v

theorem reachable_inv {d : T} {S : Nat} (hS : 1 ≤ S) {s : CfaStack T}
    (hr : Reachable d S s) : Inv s := by
  induction hr with
  | init => exact mkStack_inv d hS
  | add s r ru v _ ih =>
    cases hget : get_register_rule s r with
    | some val =>
      exact (add_update ih (by rw [hget]; rfl) ru v).2.1
    | none =>
      cases hfl : s.freeList with
      | none => rw [add_exhaust ih hget ru v hfl]; exact ih
      | some ei => exact (add_insert ih hget ru v hfl).2.1

/-! ## Sequences of calls -/

theorem runAdds_append (s : CfaStack T) (l₁ l₂ : List (Nat × Nat × T)) :
    runAdds s (l₁ ++ l₂) = runAdds (runAdds s l₁) l₂ := by
  induction l₁ generalizing s with
  | nil => rfl
  | cons op rest ih =>
    obtain ⟨r, ru, v⟩ := op
    rw [List.cons_append, runAdds, runAdds, ih]

theorem runOks_append (s : CfaStack T) (l₁ l₂ : List (Nat × Nat × T)) :
    runOks s (l₁ ++ l₂) = runOks s l₁ ++ runOks (runAdds s l₁) l₂ := by
  induction l₁ generalizing s with
  | nil => rfl
  | cons op rest ih =>
    obtain ⟨r, ru, v⟩ := op
    rw [List.cons_append, runOks, runOks, runAdds, ih, List.cons_append]

theorem lastWrite_append_single (ops : List (Nat × Nat × T)) (r ru : Nat)
    (v : T) (q : Nat) :
    lastWrite (ops ++ [(r, ru, v)]) q =
      if q = r then some (ru, v) else lastWrite ops q := by
  rw [lastWrite, List.reverse_append]
  by_cases hq : q = r
  · subst hq
    simp [List.find?]
  · have : (((r, ru, v) : Nat × Nat × T).1 == q) = false := by
      simp only [beq_eq_false_iff_ne, ne_eq]
      exact fun hh => hq hh.symm
    simp only [List.reverse_singleton, List.singleton_append, List.find?,
      this, if_neg hq]
    rfl

theorem lastWrite_isSome_iff (ops : List (Nat × Nat × T)) (q : Nat) :
    (lastWrite ops q).isSome = true ↔ q ∈ ops.map (·.1) := by
  rw [lastWrite, Option.isSome_map']
  rw [List.find?_isSome]
  constructor
  · rintro ⟨x, hx, hpred⟩
    exact List.mem_map.2 ⟨x, List.mem_reverse.1 hx, by simpa using hpred⟩
  · rintro hmem
    obtain ⟨x, hx, hfx⟩ := List.mem_map.1 hmem
    exact ⟨x, List.mem_reverse.2 hx, by simpa using hfx⟩

theorem reverse_find?_nodup {ops : List (Nat × Nat × T)}
    (hnd : (ops.map (·.1)).Nodup) {o : Nat × Nat × T} (ho : o ∈ ops) :
    ops.reverse.find? (fun x => x.1 == o.1) = some o := by
  induction ops with
  | nil => cases ho
  | cons a rest ih =>
    rw [List.map_cons, List.nodup_cons] at hnd
    rw [List.reverse_cons, List.find?_append]
    rcases List.mem_cons.1 ho with rfl | ho'
    · have hnone : rest.reverse.find? (fun x => x.1 == o.1) = none := by
        refine List.find?_eq_none.2 fun x hx => ?_
        have hxmem : x.1 ∈ rest.map (·.1) :=
          List.mem_map.2 ⟨x, List.mem_reverse.1 hx, rfl⟩
        simp only [beq_iff_eq]
        exact fun hh => hnd.1 (hh ▸ hxmem)
      rw [hnone, Option.none_or]
      simp [List.find?]
    · rw [ih hnd.2 ho', Option.or_some]

theorem lastWrite_nodup_mem {ops : List (Nat × Nat × T)}
    (hnd : (ops.map (·.1)).Nodup) {o : Nat × Nat × T} (ho : o ∈ ops) :
    lastWrite ops o.1 = some (o.2.1, o.2.2) := by
  rw [lastWrite, reverse_find?_nodup hnd ho]
  rfl

/-- The workhorse induction for call sequences: running further
`add_register` calls preserves the invariant, keeps the capacity equation
`|free| + |distinct regnums seen| = S`, makes `get_register_rule` agree with
the most recent write, and succeeds as long as the distinct-regnum budget is
not exceeded. -/
theorem run_spec {S : Nat} :
    ∀ (ops pre : List (Nat × Nat × T)) (s : CfaStack T),
      Inv s → s.entries.length = S →
      (∀ q, get_register_rule s q = lastWrite pre q) →
      (freeL s).length + ((pre.map (·.1)).toFinset.card) = S →
      (((pre ++ ops).map (·.1)).toFinset.card ≤ S) →
      Inv (runAdds s ops) ∧
      (runAdds s ops).entries.length = S ∧
      (∀ q, get_register_rule (runAdds s ops) q = lastWrite (pre ++ ops) q) ∧
      (freeL (runAdds s ops)).length
        + (((pre ++ ops).map (·.1)).toFinset.card) = S ∧
      runOks s ops = List.replicate ops.length true := by
  intro ops
  induction ops with
  | nil =>
    intro pre s hi hl hg hc _
    refine ⟨hi, hl, ?_, ?_, rfl⟩
    · intro q; rw [List.append_nil]; exact hg q
    · rw [List.append_nil]; exact hc
  | cons op rest ih =>
    obtain ⟨r, ru, v⟩ := op
    intro pre s hi hl hg hc hcard
    have hassoc : pre ++ (r, ru, v) :: rest
        = (pre ++ [(r, ru, v)]) ++ rest := by simp
    have hruns : runAdds s ((r, ru, v) :: rest)
        = runAdds (add_register s r ru v).2 rest := rfl
    have hoks : runOks s ((r, ru, v) :: rest)
        = (add_register s r ru v).1
          :: runOks (add_register s r ru v).2 rest := rfl
    cases hget : get_register_rule s r with
    | some val =>
      obtain ⟨hok, hinv', _, _, _, hlen', hfreeL', _, hgetr, hgetne⟩ :=
        add_update hi (by rw [hget]; rfl) ru v
      have hrmem : r ∈ pre.map (·.1) := by
        rw [← lastWrite_isSome_iff]
        rw [← hg r, hget]
        rfl
      have hseteq : ((pre ++ [(r, ru, v)]).map (·.1)).toFinset
          = (pre.map (·.1)).toFinset := by
        rw [List.map_append, List.toFinset_append]
        simp only [List.map_cons, List.map_nil, List.toFinset_cons,
          List.toFinset_nil]
        rw [insert_emptyc_eq]
        exact Finset.union_eq_left.2
          (Finset.singleton_subset_iff.2 (List.mem_toFinset.2 hrmem))
      obtain ⟨v1, v2⟩ := val
      have hval : get_register_rule s r = some (v1, v2) := hget
      have := ih (pre ++ [(r, ru, v)]) (add_register s r ru v).2 hinv'
        (by rw [hlen']; exact hl)
        (by
          intro q
          rw [lastWrite_append_single]
          by_cases hq : q = r
          · subst hq; rw [if_pos rfl]; exact hgetr
          · rw [if_neg hq, ← hg q]; exact hgetne q hq)
        (by rw [hseteq, hfreeL']; exact hc)
        (by rw [← hassoc]; exact hcard)
      rw [hruns, hoks, hok]
      rw [hassoc]
      exact ⟨this.1, this.2.1, this.2.2.1, this.2.2.2.1,
        by rw [this.2.2.2.2, List.length_cons]; rfl⟩
    | none =>
      have hrnotmem : r ∉ pre.map (·.1) := by
        rw [← lastWrite_isSome_iff, ← hg r, hget]
        simp
      have hcardpre : (pre.map (·.1)).toFinset.card + 1 ≤ S := by
        have hsub : insert r (pre.map (·.1)).toFinset ⊆
            ((pre ++ (r, ru, v) :: rest).map (·.1)).toFinset := by
          intro a ha
          rw [List.map_append, List.toFinset_append, Finset.mem_union]
          rcases Finset.mem_insert.1 ha with rfl | ha'
          · right
            rw [List.map_cons, List.toFinset_cons]
            exact Finset.mem_insert_self _ _
          · left; exact ha'
        have hcardins : (insert r (pre.map (·.1)).toFinset).card
            = (pre.map (·.1)).toFinset.card + 1 :=
          Finset.card_insert_of_not_mem
            fun hh => hrnotmem (List.mem_toFinset.1 hh)
        have := Finset.card_le_card hsub
        omega
      have hfreepos : 1 ≤ (freeL s).length := by omega
      cases hfl : s.freeList with
      | none =>
        exfalso
        have hchain := inv_free_chain hi
        rw [hfl] at hchain
        have : freeL s = [] := by
          cases hfle : freeL s with
          | nil => rfl
          | cons j l' => rw [hfle] at hchain; cases (hchain.of_cons).1
        rw [this] at hfreepos
        simp at hfreepos
      | some ei =>
        obtain ⟨hok, hinv', _, hlen', hfldec, _, _, hgetr, hgetne⟩ :=
          add_insert hi hget ru v hfl
        have hsetcard : ((pre ++ [(r, ru, v)]).map (·.1)).toFinset.card
            = (pre.map (·.1)).toFinset.card + 1 := by
          rw [List.map_append, List.toFinset_append]
          simp only [List.map_cons, List.map_nil, List.toFinset_cons,
            List.toFinset_nil, insert_emptyc_eq]
          rw [Finset.union_comm, ← Finset.insert_eq]
          exact Finset.card_insert_of_not_mem
            fun hh => hrnotmem (List.mem_toFinset.1 hh)
        have hfreelen' : (freeL (add_register s r ru v).2).length + 1
            = (freeL s).length := by
          rw [hfldec]; rfl
        have := ih (pre ++ [(r, ru, v)]) (add_register s r ru v).2 hinv'
          (by rw [hlen']; exact hl)
          (by
            intro q
            rw [lastWrite_append_single]
            by_cases hq : q = r
            · subst hq; rw [if_pos rfl]; exact hgetr
            · rw [if_neg hq, ← hg q]; exact hgetne q hq)
          (by rw [hsetcard]; omega)
          (by rw [← hassoc]; exact hcard)
        rw [hruns, hoks, hok]
        rw [hassoc]
        exact ⟨this.1, this.2.1, this.2.2.1, this.2.2.2.1,
          by rw [this.2.2.2.2, List.length_cons]; rfl⟩

theorem get_mkStack (d : T) (S r : Nat) :
    get_register_rule (mkStack d S) r = none := by
  rw [get_register_rule, bucketHead_mkStack]
  rfl

theorem freeL_mkStack_zero (d : T) : freeL (mkStack d 0) = [] := by
  rw [freeL, theChain]
  have h0 : (mkStack d 0).entries = [] := by
    simp [mkStack, mkEntries]
  rw [h0]
  rfl

/-! ## The claims -/

/-- C1: for every sequence of `add_register` calls whose distinct-`regnum`
count does not exceed the pool capacity `S`, a subsequent
`get_register_rule r` for any registered `r` returns success with exactly
the `rule` and `value` of the most recent `add_register` call for `r`. -/
theorem spec_c1_last_write_wins (d : T) (S : Nat)
    (ops : List (Nat × Nat × T)) (r ru : Nat) (v : T)
    (hcard : (ops.map (·.1)).toFinset.card ≤ S)
    (hlast : lastWrite ops r = some (ru, v)) :
    get_register_rule (runAdds (mkStack d S) ops) r = some (ru, v) := by
  rcases Nat.eq_zero_or_pos S with rfl | hS
  · exfalso
    have hmem : r ∈ ops.map (·.1) :=
      (lastWrite_isSome_iff ops r).1 (by rw [hlast]; rfl)
    have hpos : 0 < (ops.map (·.1)).toFinset.card :=
      Finset.card_pos.2 ⟨r, List.mem_toFinset.2 hmem⟩
    omega
  · have hrun := run_spec ops [] (mkStack d S) (mkStack_inv d hS)
      (mkEntries_length d S)
      (fun q => by rw [get_mkStack]; rfl)
      (by rw [freeL_mkStack d hS]; simp)
      (by simpa using hcard)
    have hq := hrun.2.2.1 r
    rw [List.nil_append] at hq
    rw [hq, hlast]

/-- C2 (counterexample): as stated the claim fails at `S = 0` — the
constructor's final store `_entries[S-1].next = NULL` underflows to index
`2^64 - 1`, outside the (empty) entry array, and the structure it leaves
behind is not valid: its free-list head still points at the nonexistent
entry 0, violating the invariant. -/
theorem spec_c2_counterexample :
    ctorWritesInBounds 0 = false ∧
    ctorFinalWriteIndex 0 = 2 ^ 64 - 1 ∧
    (mkStack (0 : Nat) 0).freeList = some 0 ∧
    ¬ Inv (mkStack (0 : Nat) 0) := by
  refine ⟨by decide, by decide, rfl, by decide⟩

set_option maxRecDepth 4096 in
/-- C2 (amended): for every capacity `1 ≤ S < 2^64`, construction cannot
fail — every store of the constructor stays inside the `S`-element entry
array, and the resulting state satisfies the structural invariant (free list
threading all `S` entries, all bucket heads zeroed, row 0 active).  `S = 0`
is excluded: there the final free-list-termination store indexes out of
bounds (`size_t` underflow) and the free-list head dangles. -/
theorem spec_c2_construction_in_bounds (d : T) (S : Nat) (hS : 1 ≤ S)
    (hS64 : S < pow64) :
    ctorWritesInBounds S = true ∧ Inv (mkStack d S) := by
  constructor
  · rw [ctorWritesInBounds, List.all_eq_true]
    intro x hx
    rw [ctorWriteIndices] at hx
    simp only [decide_eq_true_eq]
    rcases List.mem_append.1 hx with hx | hx
    · exact List.mem_range.1 hx
    · have hx' : x = ctorFinalWriteIndex S := by simpa using hx
      have hfin : ctorFinalWriteIndex S = S - 1 := by
        show (S + pow64 - 1) % pow64 = S - 1
        have h1 : S + pow64 - 1 = pow64 + (S - 1) := by
          have : 1 ≤ pow64 := by rw [pow64]; norm_num
          omega
        rw [h1, Nat.add_mod_left]
        exact Nat.mod_eq_of_lt (by omega)
      rw [hx', hfin]
      omega
  · exact mkStack_inv d hS

/-- C3: re-adding an already-present `regnum` overwrites in place, returns
success and leaves the free list untouched; after inserting `k ≤ S` distinct
registers, any number of repeated updates to registers among them leaves
exactly `S − k` entries on the free list. -/
theorem spec_c3_no_extra_pool_use (d : T) (S : Nat) (s : CfaStack T)
    (hInv : Inv s) (r : Nat) (hlive : (get_register_rule s r).isSome)
    (ru : Nat) (v : T) (ops₁ ops₂ : List (Nat × Nat × T))
    (hnd : (ops₁.map (·.1)).Nodup) (hk : ops₁.length ≤ S)
    (hsub : ∀ o ∈ ops₂, o.1 ∈ ops₁.map (·.1)) :
    (add_register s r ru v).1 = true ∧
    freeL (add_register s r ru v).2 = freeL s ∧
    (freeL (runAdds (mkStack d S) (ops₁ ++ ops₂))).length
      = S - ops₁.length := by
  obtain ⟨hok, _, _, _, _, _, hfreeL, _, _, _⟩ := add_update hInv hlive ru v
  refine ⟨hok, hfreeL, ?_⟩
  rcases Nat.eq_zero_or_pos S with rfl | hS
  · have hops₁ : ops₁ = [] := List.eq_nil_of_length_eq_zero (by omega)
    subst hops₁
    have hops₂ : ops₂ = [] := by
      cases ops₂ with
      | nil => rfl
      | cons o rest =>
        exact absurd (hsub o (List.mem_cons_self _ _)) (by simp)
    subst hops₂
    rw [List.nil_append]
    show (freeL (mkStack d 0)).length = 0
    rw [freeL_mkStack_zero]
    rfl
  · have hfins : ((ops₁ ++ ops₂).map (·.1)).toFinset
        = (ops₁.map (·.1)).toFinset := by
      rw [List.map_append, List.toFinset_append]
      refine Finset.union_eq_left.2 ?_
      intro a ha
      obtain ⟨o, ho, rfl⟩ := List.mem_map.1 (List.mem_toFinset.1 ha)
      exact List.mem_toFinset.2 (hsub o ho)
    have hrun := run_spec (ops₁ ++ ops₂) [] (mkStack d S) (mkStack_inv d hS)
      (mkEntries_length d S) (fun q => by rw [get_mkStack]; rfl)
      (by rw [freeL_mkStack d hS]; simp)
      (by
        rw [List.nil_append, hfins, List.toFinset_card_of_nodup hnd,
          List.length_map]
        exact hk)
    have hfin := hrun.2.2.2.1
    rw [List.nil_append, hfins, List.toFinset_card_of_nodup hnd,
      List.length_map] at hfin
    omega

/-- C4: inserting `S + 1` distinct `regnum`s, the first `S` calls succeed,
the `(S+1)`th returns failure, the failing call changes nothing (the final
state is the state after the first `S` calls), and all `S` previously
inserted registers remain retrievable with their `rule` and `value`
unchanged. -/
theorem spec_c4_overflow (d : T) (S : Nat) (hS : 1 ≤ S)
    (ops : List (Nat × Nat × T)) (hlen : ops.length = S + 1)
    (hnd : (ops.map (·.1)).Nodup) :
    runOks (mkStack d S) ops = List.replicate S true ++ [false] ∧
    runAdds (mkStack d S) ops = runAdds (mkStack d S) (ops.take S) ∧
    (∀ o ∈ ops.take S,
      get_register_rule (runAdds (mkStack d S) ops) o.1
        = some (o.2.1, o.2.2)) := by
  set tk := ops.take S with htk
  obtain ⟨olast, hsplit⟩ : ∃ olast, ops = tk ++ [olast] := by
    have hLdrop : (ops.drop S).length = 1 := by
      rw [List.length_drop]; omega
    cases hdrop : ops.drop S with
    | nil => rw [hdrop] at hLdrop; simp at hLdrop
    | cons o rest =>
      rw [hdrop, List.length_cons] at hLdrop
      have hrest : rest = [] := List.eq_nil_of_length_eq_zero (by omega)
      subst hrest
      exact ⟨o, by rw [htk, ← hdrop, List.take_append_drop]⟩
  obtain ⟨lr, lru, lv⟩ := olast
  have htklen : tk.length = S := by
    rw [htk, List.length_take]; omega
  have hndtk : (tk.map (·.1)).Nodup := by
    rw [htk, List.map_take]
    exact hnd.sublist (List.take_sublist _ _)
  have hrun := run_spec tk [] (mkStack d S) (mkStack_inv d hS)
      (mkEntries_length d S) (fun q => by rw [get_mkStack]; rfl)
      (by rw [freeL_mkStack d hS]; simp)
      (by rw [List.nil_append, List.toFinset_card_of_nodup hndtk,
            List.length_map, htklen])
  obtain ⟨hinv₁, hlen₁, hget₁, hcard₁, hoks₁⟩ := hrun
  set s₁ := runAdds (mkStack d S) tk with hs₁
  have hfree₁ : (freeL s₁).length = 0 := by
    rw [List.nil_append, List.toFinset_card_of_nodup hndtk, List.length_map,
      htklen] at hcard₁
    omega
  have hfl₁ : s₁.freeList = none := by
    cases hfl : s₁.freeList with
    | none => rfl
    | some ei =>
      exfalso
      have hch := inv_free_chain hinv₁
      rw [hfl] at hch
      cases hfle : freeL s₁ with
      | nil => rw [hfle] at hch; cases hch.eq_nil
      | cons j l' => rw [hfle] at hfree₁; simp at hfree₁
  have hkeys : ops.map (·.1) = tk.map (·.1) ++ [lr] := by
    rw [hsplit, List.map_append]
    rfl
  have holnot : lr ∉ tk.map (·.1) := by
    intro hmem
    rw [hkeys] at hnd
    rcases List.nodup_append.1 hnd with ⟨_, _, hdisj2⟩
    exact hdisj2 hmem (List.mem_singleton_self _)
  have hgetlast : get_register_rule s₁ lr = none := by
    have hq := hget₁ lr
    rw [List.nil_append] at hq
    rw [hq]
    cases hlw : lastWrite tk lr with
    | none => rfl
    | some p =>
      exfalso
      exact holnot ((lastWrite_isSome_iff tk lr).1 (by rw [hlw]; rfl))
  have hexh := add_exhaust hinv₁ hgetlast lru lv hfl₁
  have hfinal : runAdds (mkStack d S) ops = s₁ := by
    rw [hsplit, runAdds_append, ← hs₁]
    show runAdds (add_register s₁ lr lru lv).2 [] = s₁
    rw [hexh]
    rfl
  refine ⟨?_, ?_, ?_⟩
  · rw [hsplit, runOks_append, ← hs₁, hoks₁, htklen]
    show _ ++ (add_register s₁ lr lru lv).1
        :: runOks (add_register s₁ lr lru lv).2 [] = _
    rw [hexh]
    rfl
  · rw [hfinal]
  · intro o ho
    rw [hfinal]
    have hq := hget₁ o.1
    rw [List.nil_append] at hq
    rw [hq]
    exact lastWrite_nodup_mem hndtk (htk ▸ ho)

/-- C5: two distinct `regnum`s that collide on `regnum mod 15`, both
successfully added, are independently retrievable with their own most
recently written `(rule, value)`; when both were fresh insertions, the two
entries are appended in order at the end of the shared bucket chain without
displacing existing entries. -/
theorem spec_c5_collision (s : CfaStack T) (h : Inv s)
    (r1 r2 ru1 ru2 : Nat) (v1 v2 : T)
    (hne : r1 ≠ r2) (hcol : r1 % 15 = r2 % 15)
    (h1 : (add_register s r1 ru1 v1).1 = true)
    (h2 : (add_register (add_register s r1 ru1 v1).2 r2 ru2 v2).1 = true) :
    get_register_rule
        (add_register (add_register s r1 ru1 v1).2 r2 ru2 v2).2 r1
      = some (ru1, v1) ∧
    get_register_rule
        (add_register (add_register s r1 ru1 v1).2 r2 ru2 v2).2 r2
      = some (ru2, v2) ∧
    (get_register_rule s r1 = none → get_register_rule s r2 = none →
      ∃ i1 i2,
        bucketL (add_register (add_register s r1 ru1 v1).2 r2 ru2 v2).2
            (r1 % 15)
          = bucketL s (r1 % 15) ++ [i1, i2]) := by
  have step1 : Inv (add_register s r1 ru1 v1).2 ∧
      get_register_rule (add_register s r1 ru1 v1).2 r1 = some (ru1, v1) ∧
      (∀ r', r' ≠ r1 →
        get_register_rule (add_register s r1 ru1 v1).2 r'
          = get_register_rule s r') := by
    cases hg : get_register_rule s r1 with
    | some val =>
      obtain ⟨_, hinv', _, _, _, _, _, _, hgr, hgne⟩ :=
        add_update h (by rw [hg]; rfl) ru1 v1
      exact ⟨hinv', hgr, hgne⟩
    | none =>
      cases hfl : s.freeList with
      | none => rw [add_exhaust h hg ru1 v1 hfl] at h1; cases h1
      | some ei =>
        obtain ⟨_, hinv', _, _, _, _, _, hgr, hgne⟩ :=
          add_insert h hg ru1 v1 hfl
        exact ⟨hinv', hgr, hgne⟩
  obtain ⟨hinv₁, hget₁, hpres₁⟩ := step1
  have step2 : get_register_rule
        (add_register (add_register s r1 ru1 v1).2 r2 ru2 v2).2 r2
      = some (ru2, v2) ∧
      (∀ r', r' ≠ r2 →
        get_register_rule
            (add_register (add_register s r1 ru1 v1).2 r2 ru2 v2).2 r'
          = get_register_rule (add_register s r1 ru1 v1).2 r') := by
    cases hg : get_register_rule (add_register s r1 ru1 v1).2 r2 with
    | some val =>
      obtain ⟨_, _, _, _, _, _, _, _, hgr, hgne⟩ :=
        add_update hinv₁ (by rw [hg]; rfl) ru2 v2
      exact ⟨hgr, hgne⟩
    | none =>
      cases hfl : (add_register s r1 ru1 v1).2.freeList with
      | none => rw [add_exhaust hinv₁ hg ru2 v2 hfl] at h2; cases h2
      | some ei =>
        obtain ⟨_, _, _, _, _, _, _, hgr, hgne⟩ :=
          add_insert hinv₁ hg ru2 v2 hfl
        exact ⟨hgr, hgne⟩
  refine ⟨?_, step2.1, ?_⟩
  · rw [step2.2 r1 hne]
    exact hget₁
  · intro hn1 hn2
    cases hfl : s.freeList with
    | none => rw [add_exhaust h hn1 ru1 v1 hfl] at h1; cases h1
    | some ei1 =>
      obtain ⟨_, _, _, _, _, hbuck1, _, _, hgne1⟩ :=
        add_insert h hn1 ru1 v1 hfl
      have hn2' : get_register_rule (add_register s r1 ru1 v1).2 r2
          = none := by
        rw [hpres₁ r2 (fun hh => hne hh.symm)]
        exact hn2
      cases hfl2 : (add_register s r1 ru1 v1).2.freeList with
      | none => rw [add_exhaust hinv₁ hn2' ru2 v2 hfl2] at h2; cases h2
      | some ei2 =>
        obtain ⟨_, _, _, _, _, hbuck2, _, _, _⟩ :=
          add_insert hinv₁ hn2' ru2 v2 hfl2
        refine ⟨ei1, ei2, ?_⟩
        rw [hcol] at hbuck1 ⊢
        rw [hbuck2, hbuck1, List.append_assoc]
        rfl

/-- C6: in every state reachable from construction (capacity `S ≥ 1`) by
any sequence of `add_register` calls (`get_register_rule` writes nothing),
the pool still has `S` entries and the free list together with the bucket
chains of the active row holds each of the `S` pool indices exactly once. -/
theorem spec_c6_partition (d : T) (S : Nat) (hS : 1 ≤ S) (s : CfaStack T)
    (hr : Reachable d S s) :
    s.entries.length = S ∧
    (freeL s ++ rowIndexes s).Perm (List.range S) := by
  have hlen := reachable_length hr
  have hinv := reachable_inv hS hr
  exact ⟨hlen, by rw [← hlen]; exact inv_perm hinv⟩

/-- C7: in every reachable state, no two entries across the active row's
bucket chains carry the same `regnum`. -/
theorem spec_c7_unique_regnums (d : T) (S : Nat) (hS : 1 ≤ S)
    (s : CfaStack T) (hr : Reachable d S s) :
    ((rowIndexes s).map (regnumAt s)).Nodup := by
  have h := reachable_inv hS hr
  rw [rowIndexes, List.map_flatMap]
  rw [List.nodup_flatMap]
  refine ⟨fun b hb => inv_reg_nodup h b hb, ?_⟩
  refine (List.pairwise_lt_range 15).imp_of_mem ?_
  intro b b' hb hb' hlt x hxb hxb'
  obtain ⟨i, hi, hix⟩ := List.mem_map.1 hxb
  obtain ⟨i', hi', hix'⟩ := List.mem_map.1 hxb'
  have h1 := inv_placed h b hb i hi
  have h2 := inv_placed h b' hb' i' hi'
  rw [hix] at h1
  rw [hix'] at h2
  omega

/-- C8: `get_register_rule` is embedded as a pure function of the state (the
code performs no store), and on every reachable state it reports not-found
exactly when no entry for the queried `regnum` exists anywhere in the
currently active row. -/
theorem spec_c8_lookup_miss_iff (d : T) (S : Nat) (hS : 1 ≤ S)
    (s : CfaStack T) (hr : Reachable d S s) (r : Nat) :
    get_register_rule s r = none ↔
      ∀ i ∈ rowIndexes s, regnumAt s i ≠ r := by
  have h := reachable_inv hS hr
  constructor
  · intro hnone i hi
    obtain ⟨b, hb, hib⟩ := List.mem_flatMap.1 hi
    have hb15 := List.mem_range.1 hb
    by_cases hbr : b = r % 15
    · subst hbr
      exact get_none_no_match h hnone i hib
    · intro heq
      have hpl := inv_placed h b hb i hib
      rw [regnumAt] at heq
      rw [regnumAt, heq] at hpl
      exact hbr hpl.symm
  · intro hall
    rw [get_eq_find h]
    have hfind : (bucketL s (r % 15)).find?
        (fun i => entRegnum s.entries i == r) = none := by
      refine List.find?_eq_none.2 fun i hi => ?_
      have hirow : i ∈ rowIndexes s :=
        (inv_bucket_sublist (Nat.mod_lt _ (by norm_num))).mem hi
      have := hall i hirow
      rw [regnumAt] at this
      simpa using this
    rw [hfind]
    rfl

/-- C9: on every reachable state the free list and every bucket chain
materialize completely (they are finite and acyclic) with length at most
`S`, so the chain walks of `add_register` and `get_register_rule` complete
after at most `S` steps; in particular `add_register`'s walk never hits the
fault branch. -/
theorem spec_c9_bounded_walks (d : T) (S : Nat) (hS : 1 ≤ S)
    (s : CfaStack T) (hr : Reachable d S s) :
    (∃ fl, theChain s s.freeList = some fl ∧ fl.length ≤ S) ∧
    (∀ b, b < 15 →
      ∃ l, theChain s (bucketHead s b) = some l ∧ l.length ≤ S) ∧
    (∀ r, chainWalk s.entries r (bucketHead s (r % 15))
        (s.entries.length + 1) ≠ WalkRes.fault) := by
  have h := reachable_inv hS hr
  have hlen := reachable_length hr
  refine ⟨⟨freeL s, ?_, ?_⟩, ?_, ?_⟩
  · rw [theChain]
    exact isChain_chainList (inv_free_chain h) _
      (Nat.le_succ_of_le (inv_free_length_le h))
  · rw [← hlen]
    exact inv_free_length_le h
  · intro b hb
    refine ⟨bucketL s b, ?_, ?_⟩
    · rw [theChain]
      exact isChain_chainList (inv_bucket_chain h hb) _
        (Nat.le_succ_of_le (inv_bucket_length_le h hb))
    · rw [← hlen]
      exact inv_bucket_length_le h hb
  · intro r
    have hb : r % 15 < 15 := Nat.mod_lt _ (by norm_num)
    have hc := inv_bucket_chain h hb
    have hlt : (bucketL s (r % 15)).length < s.entries.length + 1 :=
      Nat.lt_succ_of_le (inv_bucket_length_le h hb)
    cases hfind : (bucketL s (r % 15)).find?
        (fun i => entRegnum s.entries i == r) with
    | some i₀ =>
      obtain ⟨e₀, _, _, hwalk⟩ := chainWalk_found hc hlt hfind
      rw [hwalk]
      simp
    | none =>
      have hno : ∀ i ∈ bucketL s (r % 15), entRegnum s.entries i ≠ r := by
        intro i hi
        have := List.find?_eq_none.1 hfind i hi
        simpa using this
      rw [chainWalk_no_match hc hlt hno]
      cases (bucketL s (r % 15)).getLast? <;> simp

/-- C10: the current-row index is 0 at construction and no operation ever
modifies it (`get_register_rule` writes nothing, `add_register` writes the
table only at row `_table_pos = 0`), so in every reachable state — for any
capacity, including `S = 0` — the bucket heads of rows 1 through 5 are still
the `NULL` they were zero-filled to at construction. -/
theorem spec_c10_row_zero_only (d : T) (S : Nat) (s : CfaStack T)
    (hr : Reachable d S s) :
    s.tablePos = 0 ∧
    ∀ row, 1 ≤ row → row < 6 → ∀ b, b < 15 →
      tableGet s.table row b = none := by
  obtain ⟨hpos, _, _, hupper⟩ := reachable_winv hr
  exact ⟨hpos, fun row h1 h6 b hb =>
    hupper row (List.mem_range.2 h6) h1 b (List.mem_range.2 hb)⟩

/-! ## Concrete witnesses (the spec's own scenarios from §8) -/

/-- C1 witness: capacity 2, the colliding inserts 5 and 20 of the spec's
scenario; the most recent write for 20 is retrieved. -/
theorem spec_c1_witness :
    get_register_rule
        (runAdds (mkStack (0 : Nat) 2) [(5, 0, 8), (20, 0, 16)]) 20
      = some (0, 16) :=
  spec_c1_last_write_wins 0 2 [(5, 0, 8), (20, 0, 16)] 20 0 16 (by decide)
    (by decide)

/-- C2 witness: capacity 1 — every constructor store is in bounds and the
constructed state satisfies the invariant. -/
theorem spec_c2_witness :
    ctorWritesInBounds 1 = true ∧ Inv (mkStack (0 : Nat) 1) :=
  spec_c2_construction_in_bounds 0 1 (by decide) (by decide)

/-- C3 witness: updating regnum 3 in place (capacity-1 scenario) succeeds
and leaves the free list untouched; after the two distinct inserts of the
capacity-2 scenario plus a repeated update of 5, exactly `2 − 2` entries
remain free. -/
theorem spec_c3_witness :
    (add_register (runAdds (mkStack (0 : Nat) 1) [(3, 0, 100)]) 3 0 200).1
      = true ∧
    freeL (add_register (runAdds (mkStack (0 : Nat) 1) [(3, 0, 100)])
        3 0 200).2
      = freeL (runAdds (mkStack (0 : Nat) 1) [(3, 0, 100)]) ∧
    (freeL (runAdds (mkStack (0 : Nat) 2)
        ([(5, 0, 8), (20, 0, 16)] ++ [(5, 0, 9)]))).length
      = 2 - [(5, 0, 8), (20, 0, 16)].length :=
  spec_c3_no_extra_pool_use 0 2 (runAdds (mkStack 0 1) [(3, 0, 100)])
    (by decide) 3 (by decide) 0 200 [(5, 0, 8), (20, 0, 16)] [(5, 0, 9)]
    (by decide) (by decide) (by decide)

/-- C4 witness: capacity 1 with two distinct regnums — the first insert
succeeds, the second fails, the failing call changes nothing, and regnum 3
stays retrievable. -/
theorem spec_c4_witness :
    runOks (mkStack (0 : Nat) 1) [(3, 0, 100), (9, 0, 1)]
      = List.replicate 1 true ++ [false] ∧
    runAdds (mkStack (0 : Nat) 1) [(3, 0, 100), (9, 0, 1)]
      = runAdds (mkStack (0 : Nat) 1)
          ([(3, 0, 100), (9, 0, 1)].take 1) ∧
    (∀ o ∈ [(3, 0, 100), (9, 0, 1)].take 1,
      get_register_rule
          (runAdds (mkStack (0 : Nat) 1) [(3, 0, 100), (9, 0, 1)]) o.1
        = some (o.2.1, o.2.2)) :=
  spec_c4_overflow 0 1 (by decide) [(3, 0, 100), (9, 0, 1)] (by decide)
    (by decide)

/-- C5 witness: the spec's capacity-2 scenario — regnums 5 and 20 collide in
bucket 5 and are both retrievable with their own pair. -/
theorem spec_c5_witness :
    get_register_rule
        (add_register (add_register (mkStack (0 : Nat) 2) 5 0 8).2
          20 0 16).2 5
      = some (0, 8) ∧
    get_register_rule
        (add_register (add_register (mkStack (0 : Nat) 2) 5 0 8).2
          20 0 16).2 20
      = some (0, 16) ∧
    (get_register_rule (mkStack (0 : Nat) 2) 5 = none →
      get_register_rule (mkStack (0 : Nat) 2) 20 = none →
      ∃ i1 i2,
        bucketL (add_register (add_register (mkStack (0 : Nat) 2) 5 0 8).2
            20 0 16).2 (5 % 15)
          = bucketL (mkStack (0 : Nat) 2) (5 % 15) ++ [i1, i2]) :=
  spec_c5_collision (mkStack 0 2) (by decide) 5 20 0 0 8 16 (by decide)
    (by decide) (by decide) (by decide)

/-- C6 witness: after one insert into a capacity-2 stack, the free list and
the row chains still partition the two pool indices. -/
theorem spec_c6_witness :
    (add_register (mkStack (0 : Nat) 2) 5 0 8).2.entries.length = 2 ∧
    (freeL (add_register (mkStack (0 : Nat) 2) 5 0 8).2
        ++ rowIndexes (add_register (mkStack (0 : Nat) 2) 5 0 8).2).Perm
      (List.range 2) :=
  spec_c6_partition 0 2 (by decide) (add_register (mkStack 0 2) 5 0 8).2
    (Reachable.add (mkStack 0 2) 5 0 8 Reachable.init)

/-- C7 witness: after one insert, the regnums across the row's chains are
pairwise distinct. -/
theorem spec_c7_witness :
    ((rowIndexes (add_register (mkStack (0 : Nat) 2) 5 0 8).2).map
      (regnumAt (add_register (mkStack (0 : Nat) 2) 5 0 8).2)).Nodup :=
  spec_c7_unique_regnums 0 2 (by decide)
    (add_register (mkStack 0 2) 5 0 8).2
    (Reachable.add (mkStack 0 2) 5 0 8 Reachable.init)

/-- C8 witness: on the one-insert state, regnum 7 reports not-found exactly
because no row entry carries it. -/
theorem spec_c8_witness :
    get_register_rule (add_register (mkStack (0 : Nat) 2) 5 0 8).2 7 = none
      ↔ ∀ i ∈ rowIndexes (add_register (mkStack (0 : Nat) 2) 5 0 8).2,
          regnumAt (add_register (mkStack (0 : Nat) 2) 5 0 8).2 i ≠ 7 :=
  spec_c8_lookup_miss_iff 0 2 (by decide)
    (add_register (mkStack 0 2) 5 0 8).2
    (Reachable.add (mkStack 0 2) 5 0 8 Reachable.init) 7

/-- C9 witness: on the one-insert state the free list materializes with at
most 2 entries and the `add_register` walk for regnum 5 does not fault. -/
theorem spec_c9_witness :
    (∃ fl, theChain (add_register (mkStack (0 : Nat) 2) 5 0 8).2
        (add_register (mkStack (0 : Nat) 2) 5 0 8).2.freeList = some fl ∧
      fl.length ≤ 2) ∧
    chainWalk (add_register (mkStack (0 : Nat) 2) 5 0 8).2.entries 5
        (bucketHead (add_register (mkStack (0 : Nat) 2) 5 0 8).2 (5 % 15))
        ((add_register (mkStack (0 : Nat) 2) 5 0 8).2.entries.length + 1)
      ≠ WalkRes.fault :=
  ⟨(spec_c9_bounded_walks 0 2 (by decide)
      (add_register (mkStack 0 2) 5 0 8).2
      (Reachable.add (mkStack 0 2) 5 0 8 Reachable.init)).1,
    (spec_c9_bounded_walks 0 2 (by decide)
      (add_register (mkStack 0 2) 5 0 8).2
      (Reachable.add (mkStack 0 2) 5 0 8 Reachable.init)).2.2 5⟩

/-- C10 witness: after one insert the active row is still row 0 and bucket 7
of row 3 is still `NULL`. -/
theorem spec_c10_witness :
    (add_register (mkStack (0 : Nat) 2) 5 0 8).2.tablePos = 0 ∧
    tableGet (add_register (mkStack (0 : Nat) 2) 5 0 8).2.table 3 7
      = none :=
  ⟨(spec_c10_row_zero_only 0 2 (add_register (mkStack 0 2) 5 0 8).2
      (Reachable.add (mkStack 0 2) 5 0 8 Reachable.init)).1,
    (spec_c10_row_zero_only 0 2 (add_register (mkStack 0 2) 5 0 8).2
      (Reachable.add (mkStack 0 2) 5 0 8 Reachable.init)).2 3 (by decide)
      (by decide) 7 (by decide)⟩

end DwarfCfa
